import Mathlib

/-!
Verification of a virtual-DOM library: createVNode / normalizeVNode /
createElement / updateElement / renderElement and the event-delegation
manager (eventManager).  Each JavaScript function is shallowly embedded as
an executable Lean definition; the theorems at the end of the file settle
the specification claims against those definitions.
-/

set_option maxHeartbeats 1000000
set_option linter.unusedVariables false

namespace VDom

/-! ## Association-list primitives

JavaScript objects and Maps are modelled as insertion-ordered association
lists.  `alookup` is property read (first match), `aset` is `Map.set` /
property write (replaces the existing entry in place, appends a fresh key at
the end), `aerase` is `Map.delete` / `removeAttribute`. -/

def alookup [DecidableEq κ] (k : κ) : List (κ × α) → Option α
  | [] => none
  | p :: l => if p.1 = k then some p.2 else alookup k l

def aset [DecidableEq κ] (k : κ) (v : α) : List (κ × α) → List (κ × α)
  | [] => [(k, v)]
  | p :: l => if p.1 = k then (k, v) :: l else p :: aset k v l

def aerase [DecidableEq κ] (k : κ) (l : List (κ × α)) : List (κ × α) :=
  l.filter (fun p => p.1 ≠ k)

def keyMem [DecidableEq κ] (k : κ) (l : List (κ × α)) : Bool :=
  l.any (fun p => p.1 = k)

def lookupD [DecidableEq κ] (d : α) (k : κ) (l : List (κ × α)) : α :=
  (alookup k l).getD d

/-! ## Property values

The value universe for vNode props: strings, integers, booleans, function
references (handlers, identified by a numeric id) and `undefined`. -/

inductive PropVal : Type where
  | str (s : String)
  | int (n : Int)
  | bool (b : Bool)
  | fn (id : Nat)
  | undef
deriving DecidableEq, Repr

/-- JavaScript `typeof value === "function"`. -/
def isCallable : PropVal → Bool
  | .fn _ => true
  | _ => false

/-- JavaScript truthiness of a prop value. -/
def truthy : PropVal → Bool
  | .str s => s ≠ ""
  | .int n => n ≠ 0
  | .bool b => b
  | .fn _ => true
  | .undef => false

/-- JavaScript `String(value)` coercion used by `setAttribute`. -/
def propToString : PropVal → String
  | .str s => s
  | .int n => toString n
  | .bool b => if b then "true" else "false"
  | .fn id => "function " ++ toString id
  | .undef => "undefined"

abbrev Props := List (String × PropVal)

/-- The `BOOLEAN_PROPS` set, identical in createElement.js and
updateElement.js. -/
def BOOLEAN_PROPS : List String := ["checked", "disabled", "selected", "readOnly"]

/-- JavaScript `key.startsWith("on")`, written over the character list so
that it evaluates by kernel reduction. -/
def startsOn (key : String) : Bool := key.data.take 2 = ['o', 'n']

/-- ASCII `toLowerCase` of one character. -/
def lowerChar (c : Char) : Char :=
  if 65 ≤ c.toNat ∧ c.toNat ≤ 90 then Char.ofNat (c.toNat + 32) else c

/-- `key.slice(2).toLowerCase()`: the event category of an `on*` prop key. -/
def eventTypeOf (key : String) : String := String.mk ((key.data.drop 2).map lowerChar)

/-- Where a (key, value) prop pair is routed by an attribute-application
pass: delegation-manager registration, `setAttribute` on a slot, or a direct
boolean property assignment. -/
inductive AttrAction : Type where
  | event (eventType : String)
  | attr (slot : String)
  | bprop (name : String)
deriving DecidableEq, Repr

/-- The if/else chain of `updateAttributes` in createElement.js (the
materializer's initial pass): an `on*` key is routed to `addEvent` only when
its value is callable; `className` writes the `class` attribute; the four
boolean props are property assignments; everything else is `setAttribute`. -/
def classifyCreate (key : String) (value : PropVal) : AttrAction :=
  if startsOn key && isCallable value then .event (eventTypeOf key)
  else if key = "className" then .attr "class"
  else if BOOLEAN_PROPS.contains key then .bprop key
  else .attr key

/-- The if/else chain of the changed/added branch of `updateAttributes` in
updateElement.js (the reconciler's diff pass): an `on*` key is routed to the
event branch with no check that the value is callable. -/
def classifyUpdate (key : String) (value : PropVal) : AttrAction :=
  if startsOn key then .event (eventTypeOf key)
  else if key = "className" then .attr "class"
  else if BOOLEAN_PROPS.contains key then .bprop key
  else .attr key

/-! ## Event delegation manager (eventManager)

`eventHandlers` is a WeakMap from DOM elements to a Map from event type to a
Set of handlers.  Elements are identified by numeric ids, handlers too; the
WeakMap and the Maps are insertion-ordered association lists, a Set is a
duplicate-free insertion-ordered list. -/

/-- One element entry of the registry: event type to handler set. -/
abbrev HandlerMap := List (String × List Nat)

/-- The `eventHandlers` WeakMap: element to its `HandlerMap`. -/
abbrev Registry := List (Nat × HandlerMap)

/-- `addEvent(element, eventType, handler)` from the event manager: create
the per-element Map and the per-type Set on demand, then `Set.add` the
handler (a no-op when the identical handler is already present). -/
def addEvent (reg : Registry) (element : Nat) (eventType : String) (handler : Nat) :
    Registry :=
  let handlers := (alookup element reg).getD []
  let handlerSet := (alookup eventType handlers).getD []
  let newSet := if handler ∈ handlerSet then handlerSet else handlerSet ++ [handler]
  aset element (aset eventType newSet handlers) reg

/-- `removeEvent(element, eventType, handler)`: delete the handler from the
Set; drop the event-type entry when its Set becomes empty; drop the element
entry when its Map becomes empty. -/
def removeEvent (reg : Registry) (element : Nat) (eventType : String) (handler : Nat) :
    Registry :=
  match alookup element reg with
  | none => reg
  | some handlers =>
    match alookup eventType handlers with
    | none => reg
    | some handlerSet =>
      let newSet := handlerSet.erase handler
      let newHandlers :=
        if newSet.isEmpty then aerase eventType handlers
        else aset eventType newSet handlers
      if newHandlers.isEmpty then aerase element reg
      else aset element newHandlers reg

/-- The handlers the dispatch loop would run for one node and one event
type: `eventHandlers.get(target)?.get(eventType)` or nothing. -/
def handlersAt (reg : Registry) (element : Nat) (eventType : String) : List Nat :=
  (alookup eventType ((alookup element reg).getD [])).getD []

/-- The bubbling walk of the listener installed by `setupEventListeners`:
`chain` is the ancestor chain starting at `event.target` (each element is
followed by its structural parent; the list ends where `parentElement`
becomes null).  While the current target exists and differs from `root`,
run all its handlers for this event type, then move to the parent.  Returns
the invoked handlers in invocation order. -/
def dispatch (reg : Registry) (root : Nat) (eventType : String) : List Nat → List Nat
  | [] => []
  | target :: rest =>
    if target = root then []
    else handlersAt reg target eventType ++ dispatch reg root eventType rest

/-- A registry state is clean when no element entry carries an empty Map and
no event-type entry carries an empty Set. -/
def cleanRegistry (reg : Registry) : Bool :=
  reg.all (fun e => !e.2.isEmpty && e.2.all (fun t => !t.2.isEmpty))

/-- One call to the mutating registry API. -/
inductive EvOp : Type where
  | add (element : Nat) (eventType : String) (handler : Nat)
  | remove (element : Nat) (eventType : String) (handler : Nat)

/-- Run a sequence of `addEvent` / `removeEvent` calls. -/
def applyOps (reg : Registry) : List EvOp → Registry
  | [] => reg
  | .add e t h :: ops => applyOps (addEvent reg e t h) ops
  | .remove e t h :: ops => applyOps (removeEvent reg e t h) ops

/-- Well-formed registry: element keys are distinct, and within each element
the event-type keys are distinct and every handler set is duplicate-free. -/
def wfRegistry (reg : Registry) : Prop :=
  (reg.map Prod.fst).Nodup ∧
    ∀ e ∈ reg, (e.2.map Prod.fst).Nodup ∧ ∀ t ∈ e.2, t.2.Nodup

instance : DecidablePred wfRegistry := fun reg => by
  unfold wfRegistry; infer_instance

/-! ## Raw vNodes, createVNode and normalizeVNode

A raw tree description is polymorphic over nullish, boolean, number and
string leaves, arrays, element descriptions and function-component
invocations.  Component functions are identified by a numeric id and
resolved through an environment. -/

inductive RawNode : Type where
  | vnull
  | vundef
  | vbool (b : Bool)
  | vnum (n : Int)
  | vstr (s : String)
  | varr (xs : List RawNode)
  | velem (tag : String) (props : Option Props) (children : List RawNode)
  | vcomp (f : Nat) (props : Option Props) (children : List RawNode)

/-- The state of the `children` key in the props object built for a
function component: absent, present with value `undefined`, or present and
bound to a child list.  (JavaScript distinguishes a key whose value is
`undefined` from an absent key: `"children" in props` differs.) -/
inductive ChildrenEntry : Type where
  | absent
  | undefVal
  | list (cs : List RawNode)

/-- The props value a resolved component receives: the original props object
(spread first) paired with the state of its `children` entry, which the
spread's explicit `children:` property always overrides. -/
abbrev CompProps := Props × ChildrenEntry

/-- An environment resolving component function ids: `env f p` is the raw
tree returned by component `f` invoked with props `p`. -/
abbrev CompEnv := Nat → CompProps → RawNode

/-- The props object built by normalizeVNode.js before invoking a function
component: `{ ...vNode.props, children: children.length > 0 ? children :
undefined }`.  The object-literal `children:` property exists even when its
value is `undefined`. -/
def componentProps (props : Option Props) (children : List RawNode) : CompProps :=
  (props.getD [],
    if children.length > 0 then ChildrenEntry.list children else ChildrenEntry.undefVal)

/-- Modelled from the spec (section 4.1 rule 5), for comparison with the
code: an input-properties value equal to the original properties plus a
`children` entry set to the original child list if non-empty, otherwise
omitted. -/
def specComponentProps (props : Option Props) (children : List RawNode) : CompProps :=
  (props.getD [],
    if children.length > 0 then ChildrenEntry.list children else ChildrenEntry.absent)

/-- The child filter of normalizeVNode.js:
`(child) => child !== "" && child != null` (loose inequality with null also
drops undefined). -/
def keepChild : RawNode → Bool
  | .vstr s => s ≠ ""
  | .vnull => false
  | .vundef => false
  | _ => true

mutual

/-- One structural pass of `normalizeVNode`: every case except the
function-component case, which is delegated to `rec` (the fuelled wrapper
supplies it).  Mirrors the six-case chain of normalizeVNode.js. -/
def normStep (rec : Nat → Option Props → List RawNode → Option RawNode) :
    RawNode → Option RawNode
  | .vnull => some (.vstr "")
  | .vundef => some (.vstr "")
  | .vbool _ => some (.vstr "")
  | .vnum n => some (.vstr (toString n))
  | .vstr s => some (.vstr s)
  | .varr xs =>
    match normStepList rec xs with
    | none => none
    | some ys => some (.varr (ys.filter keepChild))
  | .vcomp f props children => rec f props children
  | .velem tag props children =>
    match normStepList rec children with
    | none => none
    | some ys => some (.velem tag props (ys.filter keepChild))

/-- `children.map(normalizeVNode)` of the array and element cases, with the
recursion of `normStep` threaded through. -/
def normStepList (rec : Nat → Option Props → List RawNode → Option RawNode) :
    List RawNode → Option (List RawNode)
  | [] => some []
  | x :: xs =>
    match normStep rec x with
    | none => none
    | some y =>
      match normStepList rec xs with
      | none => none
      | some ys => some (y :: ys)

end

/-- `normalizeVNode(vNode)`, fuelled on the nesting depth of component
invocations only (structure costs nothing): the component case builds
`componentProps`, invokes the component through the environment, and
recursively normalizes the result with one unit of fuel consumed; `none`
means the component nesting exceeded the fuel. -/
def normalizeVNode (env : CompEnv) : Nat → RawNode → Option RawNode
  | 0, v => normStep (fun _ _ _ => none) v
  | n + 1, v =>
    normStep (fun f props children =>
      normalizeVNode env n (env f (componentProps props children))) v

/-- The children-preprocessing of createVNode.js: `children.flat(Infinity)`
— splice nested arrays to any depth. -/
def flattenAll : List RawNode → List RawNode
  | [] => []
  | .varr ys :: xs => flattenAll ys ++ flattenAll xs
  | x :: xs => x :: flattenAll xs

/-- The child filter of createVNode.js:
`child !== null && child !== undefined && child !== false && child !== true`. -/
def createKeep : RawNode → Bool
  | .vnull => false
  | .vundef => false
  | .vbool _ => false
  | _ => true

/-- The children array stored by `createVNode(type, props, ...children)`:
deep-flattened, then filtered. -/
def createVNodeChildren (children : List RawNode) : List RawNode :=
  (flattenAll children).filter createKeep

/-- `createVNode(type, props, ...children)`: `type` is a tag name
(`Sum.inl`) or a component function (`Sum.inr`). -/
def createVNode (type : Sum String Nat) (props : Option Props)
    (children : List RawNode) : RawNode :=
  match type with
  | .inl tag => .velem tag props (createVNodeChildren children)
  | .inr f => .vcomp f props (createVNodeChildren children)

/-! Canonical output characterisation for normalizeVNode. -/

mutual

/-- A raw value in the canonical image of normalization: string leaves,
arrays and elements whose (already filtered) entries are again canonical and
pass `keepChild`.  No numbers, booleans, nullish leaves or components
remain. -/
def canon : RawNode → Bool
  | .vstr _ => true
  | .varr xs => canonList xs
  | .velem _ _ xs => canonList xs
  | _ => false

/-- Canonicity of a filtered child list: every entry canonical and kept by
the filter. -/
def canonList : List RawNode → Bool
  | [] => true
  | x :: xs => canon x && keepChild x && canonList xs

end

mutual

/-- No `null`, `undefined`, `true` or `false` leaf anywhere in a raw
tree. -/
def noBadLeaf : RawNode → Bool
  | .vnull => false
  | .vundef => false
  | .vbool _ => false
  | .vnum _ => true
  | .vstr _ => true
  | .varr xs => noBadLeafList xs
  | .velem _ _ xs => noBadLeafList xs
  | .vcomp _ _ xs => noBadLeafList xs

/-- List version of `noBadLeaf`. -/
def noBadLeafList : List RawNode → Bool
  | [] => true
  | x :: xs => noBadLeaf x && noBadLeafList xs

end

mutual

/-- Does a raw tree contain an array directly inside an array? -/
def hasNestedArr : RawNode → Bool
  | .varr xs => xs.any (fun c => match c with | .varr _ => true | _ => false)
      || hasNestedArrList xs
  | .velem _ _ xs => hasNestedArrList xs
  | .vcomp _ _ xs => hasNestedArrList xs
  | _ => false

/-- List version of `hasNestedArr`. -/
def hasNestedArrList : List RawNode → Bool
  | [] => false
  | x :: xs => hasNestedArr x || hasNestedArrList xs

end

mutual

/-- Is a raw value an array? -/
def isArr : RawNode → Bool
  | .varr _ => true
  | _ => false

/-- Does a raw tree contain a component node? -/
def hasComp : RawNode → Bool
  | .vcomp _ _ _ => true
  | .varr xs => hasCompList xs
  | .velem _ _ xs => hasCompList xs
  | _ => false

/-- List version of `hasComp`. -/
def hasCompList : List RawNode → Bool
  | [] => false
  | x :: xs => hasComp x || hasCompList xs

end

/-! ## Canonical trees and the live DOM

A canonical tree (the output shape of the normalizer consumed by
createElement.js and updateElement.js) has exactly two variants: text and
element.  A live DOM node carries, for an element, its observable state: the
`setAttribute` store, the boolean-property store (default `false`, written
by direct property assignment, truthiness-coerced as the DOM does for
reflected boolean IDL attributes) and its event-delegation registrations
(the registry sliced to this node; handler values are arbitrary `PropVal`
because the diff pass registers whatever value the prop holds). -/

inductive CNode : Type where
  | text (s : String)
  | elem (tag : String) (props : Option Props) (children : List CNode)

/-- Per-node slice of the delegation registry: event type to handler set. -/
abbrev EvMap := List (String × List PropVal)

/-- Observable state of one live element. -/
structure ElemSt : Type where
  attrs : List (String × String)
  bprops : List (String × Bool)
  events : EvMap

/-- A live DOM node. -/
inductive DNode : Type where
  | dtext (s : String)
  | delem (tag : String) (st : ElemSt) (children : List DNode)

/-- `Set.add`: insert unless the identical reference is already present. -/
def addSet [DecidableEq β] (s : List β) (v : β) : List β :=
  if v ∈ s then s else s ++ [v]

/-- `addEvent` restricted to one node's registry slice (same set semantics
as the registry-level `addEvent`). -/
def addEventL (m : EvMap) (t : String) (v : PropVal) : EvMap :=
  aset t (addSet ((alookup t m).getD []) v) m

/-- `removeEvent` restricted to one node's registry slice: delete the
handler, and drop the event-type entry when its set becomes empty (the
registry-level code also drops the then-empty node entry, which this
per-node slice represents as the empty map). -/
def removeEventL (m : EvMap) (t : String) (v : PropVal) : EvMap :=
  match alookup t m with
  | none => m
  | some s =>
    if (s.erase v).isEmpty then aerase t m
    else aset t (s.erase v) m

/-- One step of `updateAttributes` in createElement.js: route one (key,
value) pair per `classifyCreate` and apply it to the element state. -/
def applyProp (st : ElemSt) (key : String) (value : PropVal) : ElemSt :=
  match classifyCreate key value with
  | .event t => { st with events := addEventL st.events t value }
  | .attr slot => { st with attrs := aset slot (propToString value) st.attrs }
  | .bprop name => { st with bprops := aset name (truthy value) st.bprops }

/-- `Object.entries(props).forEach(...)` of createElement.js's
`updateAttributes`, folded left in insertion order. -/
def applyProps (st : ElemSt) : List (String × PropVal) → ElemSt
  | [] => st
  | (k, v) :: ps => applyProps (applyProp st k v) ps

/-- `updateAttributes($el, vNode.props)` of createElement.js on a fresh
element (`if (!props) return` handles the null case). -/
def matProps (props : Option Props) : ElemSt :=
  applyProps ⟨[], [], []⟩ (props.getD [])

mutual

/-- `createElement(vNode)` restricted to canonical nodes: a string becomes a
text node; an element description becomes a platform element with its props
applied and its children materialized and appended in order.  (The source
also stringifies numbers, maps arrays to fragments, returns an empty text
node for nullish input and throws on function components; canonical nodes
reach only these two cases.) -/
def createElement : CNode → DNode
  | .text s => .dtext s
  | .elem tag props children =>
    .delem tag (matProps props) (createElementList children)

/-- `vNode.children.forEach(child => $el.appendChild(createElement(child)))`
(the nullish-skip guard is unreachable on canonical children). -/
def createElementList : List CNode → List DNode
  | [] => []
  | c :: cs => createElement c :: createElementList cs

end

/-- The removed-key branch of `updateAttributes` in updateElement.js (a key
present in the old props and absent from the new ones): an `on*` key —
with no callability check — unregisters the old handler; `className`
removes the `class` attribute; a boolean prop is set to `false` (never
removed as a string attribute); anything else is `removeAttribute`. -/
def removeProp (st : ElemSt) (key : String) (oldValue : PropVal) : ElemSt :=
  if startsOn key then
    { st with events := removeEventL st.events (eventTypeOf key) oldValue }
  else if key = "className" then { st with attrs := aerase "class" st.attrs }
  else if BOOLEAN_PROPS.contains key then
    { st with bprops := aset key false st.bprops }
  else { st with attrs := aerase key st.attrs }

/-- The changed/added branch of `updateAttributes` in updateElement.js,
routed per `classifyUpdate`: for an event key, first unregister the old
handler if it is truthy, then register the new value. -/
def setProp (st : ElemSt) (key : String) (value oldValue : PropVal) : ElemSt :=
  match classifyUpdate key value with
  | .event t =>
    if truthy oldValue then
      { st with events := addEventL (removeEventL st.events t oldValue) t value }
    else { st with events := addEventL st.events t value }
  | .attr slot => { st with attrs := aset slot (propToString value) st.attrs }
  | .bprop name => { st with bprops := aset name (truthy value) st.bprops }

/-- `updateAttributes(target, originNewProps, originOldProps)` of
updateElement.js: null props become `{}`; first remove every old key absent
from the new props, then apply every new (key, value) whose old value is not
strictly equal (an absent old key reads as `undefined`). -/
def updateAttributesU (st : ElemSt) (newPropsO oldPropsO : Option Props) : ElemSt :=
  let newProps := newPropsO.getD []
  let oldProps := oldPropsO.getD []
  let st1 := oldProps.foldl
    (fun s kv => if keyMem kv.1 newProps then s else removeProp s kv.1 kv.2) st
  newProps.foldl
    (fun s kv =>
      if (alookup kv.1 oldProps).getD .undef = kv.2 then s
      else setProp s kv.1 kv.2 ((alookup kv.1 oldProps).getD .undef)) st1

/-- `child.textContent = s` on a live node: overwrites a text node's
content; on an element it replaces the whole child list with one text
node. -/
def setTextContent (d : DNode) (s : String) : DNode :=
  match d with
  | .dtext _ => .dtext s
  | .delem t st _ => .delem t st [.dtext s]

/-- JavaScript falsiness of a canonical node position: `undefined` (absent)
and the empty string are falsy; everything else that can occur in a
canonical tree is truthy. -/
def jsFalsy : Option CNode → Bool
  | none => true
  | some (.text s) => s = ""
  | some (.elem _ _ _) => false

/-- `createElement` applied to a possibly-absent node:
`createElement(undefined)` returns an empty text node. -/
def createElementO : Option CNode → DNode
  | none => .dtext ""
  | some n => createElement n

/-- The trailing surplus-removal loop of updateElement.js:
`for (let i = oldLength - 1; i >= newLength; i--) if (childNodes[i])
removeChild(childNodes[i])`, iterated here by its trip count with `i` the
descending index.  Returns the new child list and the indices at which a
removal actually happened, in execution order. -/
def remLoop (kids : List DNode) (i : Nat) : Nat → List DNode × List Nat
  | 0 => (kids, [])
  | count + 1 =>
    if i < kids.length then
      let r := remLoop (kids.eraseIdx i) (i - 1) count
      (r.1, i :: r.2)
    else remLoop kids (i - 1) count

/-- The removal statement of case 1 of updateElement.js:
`if (childNodes[index]) removeChild(childNodes[index])` — an erase guarded by
the index being in range, recording the index when a removal happens. -/
def removeAt (parent : List DNode) (index : Nat) : List DNode × List Nat :=
  if index < parent.length then (parent.eraseIdx index, [index]) else (parent, [])

mutual

/-- `updateElement(parentElement, newNode, oldNode, index)`: the seven-case
diff of updateElement.js, as a function from the parent's live child list to
the new child list, paired with the indices of the `removeChild` calls it
performs, in execution order.  Case order follows the source: removal,
append, text update/replace, text-to-structural replace, tag-change replace,
same-tag reuse (attribute diff, positional child recursion, surplus
removal).  Out-of-range `List.set` / `List.eraseIdx` are no-ops, which
models the source's `if (child)` guards.  (The arm for two absent nodes is
unreachable: the children loop always has at least one side present.) -/
def updateElement (parent : List DNode) (newNode oldNode : Option CNode)
    (index : Nat) : List DNode × List Nat :=
  if jsFalsy newNode && !jsFalsy oldNode then removeAt parent index
  else if !jsFalsy newNode && jsFalsy oldNode then
    (parent ++ [createElementO newNode], [])
  else
    match newNode, oldNode with
    | some (.text ns), some (.text os) =>
      if ns ≠ os then
        match parent[index]? with
        | some child => (parent.set index (setTextContent child ns), [])
        | none => (parent, [])
      else (parent, [])
    | some (.text ns), _ =>
      (parent.set index (createElement (.text ns)), [])
    | _, some (.text os) =>
      (parent.set index (createElementO newNode), [])
    | some (.elem ntag nprops ncs), some (.elem otag oprops ocs) =>
      if ntag ≠ otag then
        (parent.set index (createElement (.elem ntag nprops ncs)), [])
      else
        match parent[index]? with
        | some (.delem t st tkids) =>
          let st2 := updateAttributesU st nprops oprops
          let r1 := childLoop tkids ncs ocs 0
          let r2 :=
            if ocs.length > ncs.length then
              remLoop r1.1 (ocs.length - 1) (ocs.length - ncs.length)
            else (r1.1, [])
          (parent.set index (.delem t st2 r2.1), r1.2 ++ r2.2)
        | some (.dtext _) => (parent, [])
        | none => (parent, [])
    | _, _ => (parent, [])
termination_by sizeOf newNode + sizeOf oldNode
decreasing_by
  all_goals simp_wf
  all_goals omega

/-- The positional child loop of updateElement.js:
`for (let i = 0; i < maxLength; i++) updateElement(target, newChildren[i],
oldChildren[i], i)`, written by peeling the (immutable) child arrays — the
head of the remaining list is exactly `children[i]`. -/
def childLoop (kids : List DNode) (news olds : List CNode) (i : Nat) :
    List DNode × List Nat :=
  match news, olds with
  | [], [] => (kids, [])
  | n :: ns, [] =>
    let r := updateElement kids (some n) none i
    let r2 := childLoop r.1 ns [] (i + 1)
    (r2.1, r.2 ++ r2.2)
  | [], o :: os =>
    let r := updateElement kids none (some o) i
    let r2 := childLoop r.1 [] os (i + 1)
    (r2.1, r.2 ++ r2.2)
  | n :: ns, o :: os =>
    let r := updateElement kids (some n) (some o) i
    let r2 := childLoop r.1 ns os (i + 1)
    (r2.1, r.2 ++ r2.2)
termination_by sizeOf news + sizeOf olds + 1
decreasing_by
  all_goals simp_wf
  all_goals omega

end

/-- The combined effect, on the region of the live child list beyond the
new-children length, of the ascending child loop once the new children are
exhausted: each iteration erases at the current absolute index (a no-op when
out of range), and because the erase shifts the remainder left while the
index still advances, every other surviving node is kept.  One step: drop
the head, keep the next, continue on the rest with one fewer iteration. -/
def skipErase (l : List DNode) : Nat → List DNode
  | 0 => l
  | k + 1 =>
    match l with
    | [] => []
    | [_] => []
    | _ :: b :: rest => b :: skipErase rest k

/-! ## Observable equivalence of live DOM trees

Attribute, boolean-property and registration stores are compared as finite
maps (lookup agreement over the keys of either side); boolean properties
default to `false` on a fresh element. -/

def attrsEquiv (a b : List (String × String)) : Bool :=
  (a.map Prod.fst ++ b.map Prod.fst).all (fun k => alookup k a == alookup k b)

def bpropsEquiv (a b : List (String × Bool)) : Bool :=
  (a.map Prod.fst ++ b.map Prod.fst).all (fun k => lookupD false k a == lookupD false k b)

def eventsEquiv (a b : EvMap) : Bool :=
  (a.map Prod.fst ++ b.map Prod.fst).all (fun k => lookupD [] k a == lookupD [] k b)

def stEquiv (a b : ElemSt) : Bool :=
  attrsEquiv a.attrs b.attrs && bpropsEquiv a.bprops b.bprops &&
    eventsEquiv a.events b.events

mutual

/-- Structural and attribute equivalence of live trees. -/
def dEquiv : DNode → DNode → Bool
  | .dtext s, .dtext s2 => s = s2
  | .delem t st kids, .delem t2 st2 kids2 =>
    t = t2 && stEquiv st st2 && dEquivList kids kids2
  | _, _ => false

/-- Pointwise equivalence of live child lists. -/
def dEquivList : List DNode → List DNode → Bool
  | [], [] => true
  | x :: xs, y :: ys => dEquiv x y && dEquivList xs ys
  | _, _ => false

end

/-! ## Well-behaved canonical trees -/

/-- Duplicate-freedom of a list of attribute actions. -/
def nodupActions : List AttrAction → Bool
  | [] => true
  | a :: l => !(l.contains a) && nodupActions l

/-- A well-behaved props object: no `undefined` value, every `on*` key holds
a callable value, and no two entries are routed to the same target (same
event category, same attribute slot or same boolean property) — in
particular keys are distinct and `className` / `class` do not coexist. -/
def goodProps (ps : Props) : Bool :=
  ps.all (fun kv => (!startsOn kv.1 || isCallable kv.2) && !(kv.2 == PropVal.undef)) &&
    nodupActions (ps.map (fun kv => classifyCreate kv.1 kv.2))

/-- Lift of `goodProps` to a nullable props object. -/
def goodPropsO : Option Props → Bool
  | none => true
  | some ps => goodProps ps

/-- A non-falsy canonical node (not the empty text node). -/
def solid : CNode → Bool
  | .text s => s ≠ ""
  | .elem _ _ _ => true

mutual

/-- A well-behaved canonical tree: every element carries well-behaved props
and every child is solid (normalizer output never keeps an empty-text
child). -/
def goodTree : CNode → Bool
  | .text _ => true
  | .elem _ ps cs => goodPropsO ps && goodTreeList cs

/-- Children of a well-behaved element. -/
def goodTreeList : List CNode → Bool
  | [] => true
  | c :: cs => goodTree c && solid c && goodTreeList cs

end

/-- Duplicate-freedom of props keys. -/
def nodupKeysP : Props → Bool
  | [] => true
  | kv :: l => !(keyMem kv.1 l) && nodupKeysP l

mutual

/-- Every props object in the tree has duplicate-free keys (JavaScript
object literals guarantee this). -/
def nodupKeysTree : CNode → Bool
  | .text _ => true
  | .elem _ ps cs => nodupKeysP (ps.getD []) && nodupKeysTreeList cs

/-- List version of `nodupKeysTree`. -/
def nodupKeysTreeList : List CNode → Bool
  | [] => true
  | c :: cs => nodupKeysTree c && nodupKeysTreeList cs

end

/-! ## Lemmas about the association-list primitives -/

theorem alookup_aset_self [DecidableEq κ] (k : κ) (v : α) (l : List (κ × α)) :
    alookup k (aset k v l) = some v := by
  induction l with
  | nil => simp [aset, alookup]
  | cons p l ih =>
    by_cases hp : p.1 = k
    · simp [aset, hp, alookup]
    · simp [aset, hp, alookup, ih]

theorem alookup_aset_ne [DecidableEq κ] (k k2 : κ) (v : α) (l : List (κ × α))
    (hne : k ≠ k2) : alookup k (aset k2 v l) = alookup k l := by
  have hk2 : ¬(k2 = k) := fun hh => hne hh.symm
  induction l with
  | nil => simp [aset, alookup, hk2]
  | cons p l ih =>
    by_cases hp : p.1 = k2
    · have hpk : ¬(p.1 = k) := by rw [hp]; exact hk2
      simp [aset, hp, alookup, hk2, hpk]
    · simp only [aset, hp, if_false, alookup]
      by_cases hk : p.1 = k <;> simp [hk, ih]

theorem aset_lookup_self [DecidableEq κ] (k : κ) (v : α) (l : List (κ × α))
    (h : alookup k l = some v) : aset k v l = l := by
  induction l with
  | nil => simp [alookup] at h
  | cons p l ih =>
    cases p with
    | mk k2 v2 =>
      by_cases hp : k2 = k
      · simp only [alookup, hp, if_true, Option.some.injEq] at h
        subst hp; subst h
        simp [aset]
      · simp only [alookup, hp, if_false] at h
        simp [aset, hp, ih h]

theorem alookup_aerase_ne [DecidableEq κ] (k k2 : κ) (l : List (κ × α))
    (hne : k ≠ k2) : alookup k (aerase k2 l) = alookup k l := by
  induction l with
  | nil => rfl
  | cons p l ih =>
    unfold aerase at ih ⊢
    by_cases hp : p.1 = k2
    · rw [List.filter_cons_of_neg (by simp [hp])]
      have hk : p.1 ≠ k := by rw [hp]; exact fun hh => hne hh.symm
      rw [ih]
      simp [alookup, hk]
    · rw [List.filter_cons_of_pos (by simp [hp])]
      by_cases hk : p.1 = k
      · simp [alookup, hk]
      · simp only [alookup, hk, if_false]
        exact ih

theorem alookup_forall [DecidableEq κ] {P : α → Prop} (k : κ) (l : List (κ × α))
    (hall : ∀ p ∈ l, P p.2) {v : α} (h : alookup k l = some v) : P v := by
  induction l with
  | nil => simp [alookup] at h
  | cons p l ih =>
    by_cases hp : p.1 = k
    · simp [alookup, hp] at h
      exact h ▸ hall p (by simp)
    · simp [alookup, hp] at h
      exact ih (fun q hq => hall q (by simp [hq])) h

theorem aset_forall [DecidableEq κ] {P : α → Prop} (k : κ) (v : α) (l : List (κ × α))
    (hall : ∀ p ∈ l, P p.2) (hv : P v) : ∀ p ∈ aset k v l, P p.2 := by
  induction l with
  | nil => simpa [aset]
  | cons p l ih =>
    by_cases hp : p.1 = k
    · simp only [aset, hp, if_true]
      rintro q hq
      rcases List.mem_cons.1 hq with h | h
      · simpa [h]
      · exact hall q (by simp [h])
    · simp only [aset, hp, if_false]
      rintro q hq
      rcases List.mem_cons.1 hq with h | h
      · exact hall q (by simp [h])
      · exact ih (fun r hr => hall r (by simp [hr])) q h

theorem aerase_forall [DecidableEq κ] {P : α → Prop} (k : κ) (l : List (κ × α))
    (hall : ∀ p ∈ l, P p.2) : ∀ p ∈ aerase k l, P p.2 := by
  intro p hp
  exact hall p (List.mem_of_mem_filter hp)

theorem aset_nonempty [DecidableEq κ] (k : κ) (v : α) (l : List (κ × α)) :
    aset k v l ≠ [] := by
  cases l with
  | nil => simp [aset]
  | cons p l => by_cases hp : p.1 = k <;> simp [aset, hp]

/-! ## Claim C6: attribute-classification agreement between passes -/

/-- Claim C6, counterexample: the key `onClick` with the non-callable value
`"x"` is classified as a generic attribute by the materializer's pass but as
an event registration by the reconciler's diff pass, so the two passes do
not classify every key identically. -/
theorem classify_disagree_onClick_string :
    classifyCreate "onClick" (PropVal.str "x") ≠
      classifyUpdate "onClick" (PropVal.str "x") := by
  decide

/-- Claim C6, amended: the two attribute-application passes classify a key
identically whenever the value is callable or the key does not start with
"on"; a non-callable value under an "on"-prefixed key is routed to the
generic-attribute rule by the materializer but to the event rule by the
reconciler. -/
theorem classify_agree (key : String) (value : PropVal)
    (h : isCallable value = true ∨ startsOn key = false) :
    classifyCreate key value = classifyUpdate key value := by
  rcases h with h | h
  · simp [classifyCreate, classifyUpdate, h]
  · simp [classifyCreate, classifyUpdate, h]

/-- Witness for `classify_agree` at the concrete pair
(`className`, `"btn"`). -/
theorem classify_agree_witness :
    (isCallable (PropVal.str "btn") = true ∨ startsOn "className" = false) ∧
      classifyCreate "className" (PropVal.str "btn") =
        classifyUpdate "className" (PropVal.str "btn") :=
  ⟨by decide, classify_agree "className" (PropVal.str "btn") (by decide)⟩

/-! ## Claim C8: addEvent deduplication -/

theorem addEvent_handlersAt (reg : Registry) (e : Nat) (t : String) (h : Nat) :
    handlersAt (addEvent reg e t h) e t =
      (if h ∈ handlersAt reg e t then handlersAt reg e t
       else handlersAt reg e t ++ [h]) := by
  simp only [handlersAt, addEvent, alookup_aset_self, Option.getD_some]

theorem addEvent_idem (reg : Registry) (e : Nat) (t : String) (h : Nat) :
    addEvent (addEvent reg e t h) e t h = addEvent reg e t h := by
  unfold addEvent
  simp only [alookup_aset_self, Option.getD_some]
  have hmem : h ∈ (if h ∈ (alookup t ((alookup e reg).getD [])).getD [] then
      (alookup t ((alookup e reg).getD [])).getD []
    else (alookup t ((alookup e reg).getD [])).getD [] ++ [h]) := by
    split <;> simp_all
  rw [if_pos hmem, aset_lookup_self _ _ _ (alookup_aset_self _ _ _),
      aset_lookup_self _ _ _ (alookup_aset_self _ _ _)]

/-- Claim C8: registering the identical (element, eventType, handler) triple
twice leaves the registry exactly as registering it once does — hence every
subsequent dispatch behaves identically — and after the double registration
the handler occurs exactly once in the element's handler set for that event
type, so a dispatched event of that type reaching that element invokes it
exactly once. -/
theorem addEvent_dedup (reg : Registry) (e : Nat) (t : String) (h : Nat)
    (hwf : wfRegistry reg) :
    addEvent (addEvent reg e t h) e t h = addEvent reg e t h ∧
      List.count h (handlersAt (addEvent (addEvent reg e t h) e t h) e t) = 1 ∧
      ∀ root eventType chain,
        dispatch (addEvent (addEvent reg e t h) e t h) root eventType chain =
          dispatch (addEvent reg e t h) root eventType chain := by
  refine ⟨addEvent_idem reg e t h, ?_, fun root eventType chain => by
    rw [addEvent_idem]⟩
  rw [addEvent_idem, addEvent_handlersAt]
  have hnd : (handlersAt reg e t).Nodup := by
    rcases hwf with ⟨hkeys, hsets⟩
    unfold handlersAt
    cases helem : alookup e reg with
    | none => simp [alookup]
    | some m =>
      have hm := alookup_forall
        (P := fun m => (List.map Prod.fst m).Nodup ∧ ∀ t ∈ m, t.2.Nodup)
        e reg hsets helem
      cases ht : alookup t m with
      | none => simp [ht]
      | some s =>
        have := alookup_forall (P := fun s => s.Nodup) t m hm.2 ht
        simpa [ht] using this
  by_cases hmem : h ∈ handlersAt reg e t
  · simp only [hmem, if_true]
    exact List.count_eq_one_of_mem hnd hmem
  · simp only [hmem, if_false, List.count_append]
    simp [List.count_eq_zero_of_not_mem hmem]

/-- Witness for `addEvent_dedup` at a concrete registry. -/
theorem addEvent_dedup_witness :
    wfRegistry [(7, [("click", [3])])] ∧
      addEvent (addEvent [(7, [("click", [3])])] 7 "click" 9) 7 "click" 9 =
        addEvent [(7, [("click", [3])])] 7 "click" 9 ∧
      List.count 9 (handlersAt
        (addEvent (addEvent [(7, [("click", [3])])] 7 "click" 9) 7 "click" 9)
        7 "click") = 1 := by
  have hwf : wfRegistry [(7, [("click", [3])])] := by decide
  have := addEvent_dedup [(7, [("click", [3])])] 7 "click" 9 hwf
  exact ⟨hwf, this.1, this.2.1⟩

/-! ## Claim C9: registry cleanup invariant -/

theorem cleanRegistry_iff (reg : Registry) :
    cleanRegistry reg = true ↔ ∀ p ∈ reg, p.2 ≠ [] ∧ ∀ q ∈ p.2, q.2 ≠ [] := by
  simp [cleanRegistry, List.all_eq_true, List.isEmpty_iff]

theorem clean_addEvent (reg : Registry) (e : Nat) (t : String) (h : Nat)
    (hc : cleanRegistry reg = true) : cleanRegistry (addEvent reg e t h) = true := by
  rw [cleanRegistry_iff] at hc ⊢
  unfold addEvent
  refine aset_forall (P := fun m => m ≠ [] ∧ ∀ q ∈ m, q.2 ≠ []) e _ reg hc
    ⟨aset_nonempty _ _ _, ?_⟩
  refine aset_forall (P := fun s => s ≠ []) t _ _ ?_ ?_
  · intro r hr
    cases helem : alookup e reg with
    | none => simp [helem] at hr
    | some m =>
      have := alookup_forall (P := fun m => m ≠ [] ∧ ∀ q ∈ m, q.2 ≠ [])
        e reg hc helem
      simp only [helem, Option.getD_some] at hr
      exact this.2 r hr
  · split
    · rename_i hmem
      exact List.ne_nil_of_mem hmem
    · simp

theorem clean_removeEvent (reg : Registry) (e : Nat) (t : String) (h : Nat)
    (hc : cleanRegistry reg = true) : cleanRegistry (removeEvent reg e t h) = true := by
  rw [cleanRegistry_iff] at hc ⊢
  unfold removeEvent
  split
  · exact hc
  · rename_i handlers helem
    split
    · exact hc
    · rename_i handlerSet hset
      have hhandlers : ∀ q ∈ handlers, q.2 ≠ [] :=
        (alookup_forall (P := fun m => m ≠ [] ∧ ∀ q ∈ m, q.2 ≠ [])
          e reg hc helem).2
      dsimp only
      split
      · split
        · exact aerase_forall (P := fun m => m ≠ [] ∧ ∀ q ∈ m, q.2 ≠ []) e reg hc
        · rename_i hne
          exact aset_forall (P := fun m => m ≠ [] ∧ ∀ q ∈ m, q.2 ≠ []) e _ reg hc
            ⟨by simpa [List.isEmpty_iff] using hne,
              aerase_forall (P := fun s => s ≠ []) t handlers hhandlers⟩
      · rename_i hsne
        split
        · exact aerase_forall (P := fun m => m ≠ [] ∧ ∀ q ∈ m, q.2 ≠ []) e reg hc
        · rename_i hne
          exact aset_forall (P := fun m => m ≠ [] ∧ ∀ q ∈ m, q.2 ≠ []) e _ reg hc
            ⟨by simpa [List.isEmpty_iff] using hne,
              aset_forall (P := fun s => s ≠ []) t _ handlers hhandlers
                (by simpa [List.isEmpty_iff] using hsne)⟩

theorem clean_applyOps (ops : List EvOp) (reg : Registry)
    (hc : cleanRegistry reg = true) : cleanRegistry (applyOps reg ops) = true := by
  induction ops generalizing reg with
  | nil => exact hc
  | cons op ops ih =>
    cases op with
    | add e t h => exact ih _ (clean_addEvent reg e t h hc)
    | remove e t h => exact ih _ (clean_removeEvent reg e t h hc)

/-- Claim C9: after any sequence of addEvent/removeEvent calls starting from
the empty registry, no element entry carries an empty event-type map and no
event-type entry carries an empty handler set; in particular an element all
of whose handlers have been removed has no registry entry at all (any
element entry that exists carries some event type with a non-empty handler
set). -/
theorem registry_cleanup (ops : List EvOp) :
    cleanRegistry (applyOps [] ops) = true ∧
      ∀ e m, alookup e (applyOps [] ops) = some m →
        ∃ q ∈ m, q.2 ≠ [] := by
  have hclean := clean_applyOps ops [] (by decide)
  refine ⟨hclean, ?_⟩
  intro e m hm
  rw [cleanRegistry_iff] at hclean
  have := alookup_forall (P := fun m => m ≠ [] ∧ ∀ q ∈ m, q.2 ≠ [])
    e _ hclean hm
  rcases this with ⟨hne, hall⟩
  cases m with
  | nil => exact absurd rfl hne
  | cons q m => exact ⟨q, by simp, hall q (by simp)⟩

/-! ## Claim C10: dispatch never runs handlers of the delegation root -/

/-- Claim C10: the bubbling walk stops at the delegation root.  When the
event target is the root itself no handlers run at all, and handlers
registered (via addEvent) on the root container are invisible to dispatch:
adding any handler for the root leaves every dispatch result unchanged. -/
theorem dispatch_below_root (reg : Registry) (root : Nat) (t eventType : String)
    (h : Nat) (rest chain : List Nat) :
    dispatch reg root eventType (root :: rest) = [] ∧
      dispatch (addEvent reg root t h) root eventType chain =
        dispatch reg root eventType chain := by
  constructor
  · simp [dispatch]
  · induction chain with
    | nil => simp [dispatch]
    | cons target rest ih =>
      by_cases htarget : target = root
      · simp [dispatch, htarget]
      · have hlook : alookup target (addEvent reg root t h) = alookup target reg := by
          unfold addEvent
          exact alookup_aset_ne target root _ reg htarget
        simp [dispatch, htarget, handlersAt, hlook, ih]

/-! ## Lemmas about normalization -/

theorem canonList_all (xs : List RawNode) (h : canonList xs = true) :
    ∀ x ∈ xs, canon x = true ∧ keepChild x = true := by
  induction xs with
  | nil => simp
  | cons x xs ih =>
    simp only [canonList, Bool.and_eq_true] at h
    intro y hy
    rcases List.mem_cons.1 hy with hxy | hxy
    · exact hxy ▸ ⟨h.1.1, h.1.2⟩
    · exact ih h.2 y hxy

theorem canonList_filter (xs : List RawNode) (h : canonList xs = true) :
    xs.filter keepChild = xs := by
  rw [List.filter_eq_self]
  exact fun x hx => (canonList_all xs h x hx).2

theorem all_canonList_filter (ys : List RawNode)
    (h : ∀ y ∈ ys, canon y = true) : canonList (ys.filter keepChild) = true := by
  induction ys with
  | nil => simp [canonList]
  | cons y ys ih =>
    by_cases hk : keepChild y = true
    · rw [List.filter_cons_of_pos hk]
      simp only [canonList, Bool.and_eq_true]
      exact ⟨⟨h y (by simp), hk⟩, ih fun z hz => h z (by simp [hz])⟩
    · rw [List.filter_cons_of_neg (by simpa using hk)]
      exact ih fun z hz => h z (by simp [hz])

mutual

theorem canon_normStep_id (rec : Nat → Option Props → List RawNode → Option RawNode)
    (v : RawNode) (hc : canon v = true) : normStep rec v = some v := by
  cases v with
  | vstr s => simp [normStep]
  | varr xs =>
    simp only [canon] at hc
    simp [normStep, canonList_normStepList_id rec xs hc, canonList_filter xs hc]
  | velem tag props children =>
    simp only [canon] at hc
    simp [normStep, canonList_normStepList_id rec children hc,
      canonList_filter children hc]
  | vnull => simp [canon] at hc
  | vundef => simp [canon] at hc
  | vbool b => simp [canon] at hc
  | vnum n => simp [canon] at hc
  | vcomp f props children => simp [canon] at hc

theorem canonList_normStepList_id
    (rec : Nat → Option Props → List RawNode → Option RawNode)
    (xs : List RawNode) (hc : canonList xs = true) : normStepList rec xs = some xs := by
  cases xs with
  | nil => simp [normStepList]
  | cons x xs =>
    simp only [canonList, Bool.and_eq_true] at hc
    simp [normStepList, canon_normStep_id rec x hc.1.1,
      canonList_normStepList_id rec xs hc.2]

end

mutual

theorem normStep_canon (rec : Nat → Option Props → List RawNode → Option RawNode)
    (hrec : ∀ f p c w, rec f p c = some w → canon w = true)
    (v w : RawNode) (h : normStep rec v = some w) : canon w = true := by
  cases v with
  | vnull => simp [normStep] at h; simp [← h, canon]
  | vundef => simp [normStep] at h; simp [← h, canon]
  | vbool b => simp [normStep] at h; simp [← h, canon]
  | vnum n => simp [normStep] at h; simp [← h, canon]
  | vstr s => simp [normStep] at h; simp [← h, canon]
  | varr xs =>
    rw [normStep] at h
    cases hys : normStepList rec xs with
    | none => rw [hys] at h; simp at h
    | some ys =>
      rw [hys] at h
      simp only [Option.some.injEq] at h
      rw [← h]
      simp only [canon]
      exact all_canonList_filter ys (normStepList_canon rec hrec xs ys hys)
  | vcomp f props children =>
    exact hrec f props children w h
  | velem tag props children =>
    rw [normStep] at h
    cases hys : normStepList rec children with
    | none => rw [hys] at h; simp at h
    | some ys =>
      rw [hys] at h
      simp only [Option.some.injEq] at h
      rw [← h]
      simp only [canon]
      exact all_canonList_filter ys (normStepList_canon rec hrec children ys hys)

theorem normStepList_canon (rec : Nat → Option Props → List RawNode → Option RawNode)
    (hrec : ∀ f p c w, rec f p c = some w → canon w = true)
    (xs ys : List RawNode) (h : normStepList rec xs = some ys) :
    ∀ y ∈ ys, canon y = true := by
  cases xs with
  | nil =>
    simp only [normStepList, Option.some.injEq] at h
    simp [← h]
  | cons x xs =>
    rw [normStepList] at h
    cases hy : normStep rec x with
    | none => rw [hy] at h; simp at h
    | some y =>
      rw [hy] at h
      cases hys : normStepList rec xs with
      | none => rw [hys] at h; simp at h
      | some zs =>
        rw [hys] at h
        simp only [Option.some.injEq] at h
        rw [← h]
        intro z hz
        rcases List.mem_cons.1 hz with hzy | hzy
        · exact hzy ▸ normStep_canon rec hrec x y hy
        · exact normStepList_canon rec hrec xs zs hys z hzy

end

theorem normalizeVNode_canon (env : CompEnv) (fuel : Nat) (r v : RawNode)
    (h : normalizeVNode env fuel r = some v) : canon v = true := by
  induction fuel generalizing r v with
  | zero =>
    exact normStep_canon _ (fun f p c w hw => by simp at hw) r v h
  | succ n ih =>
    exact normStep_canon _ (fun f p c w hw => ih _ _ hw) r v h

mutual

theorem canon_hasComp (v : RawNode) (hc : canon v = true) : hasComp v = false := by
  cases v with
  | vstr s => simp [hasComp]
  | varr xs => simp only [canon] at hc; simp [hasComp, canonList_hasComp xs hc]
  | velem tag props children =>
    simp only [canon] at hc; simp [hasComp, canonList_hasComp children hc]
  | vnull => simp [canon] at hc
  | vundef => simp [canon] at hc
  | vbool b => simp [canon] at hc
  | vnum n => simp [canon] at hc
  | vcomp f props children => simp [canon] at hc

theorem canonList_hasComp (xs : List RawNode) (hc : canonList xs = true) :
    hasCompList xs = false := by
  cases xs with
  | nil => simp [hasCompList]
  | cons x xs =>
    simp only [canonList, Bool.and_eq_true] at hc
    simp [hasCompList, canon_hasComp x hc.1.1, canonList_hasComp xs hc.2]

end

mutual

theorem canon_noBadLeaf (v : RawNode) (hc : canon v = true) : noBadLeaf v = true := by
  cases v with
  | vstr s => simp [noBadLeaf]
  | varr xs => simp only [canon] at hc; simp [noBadLeaf, canonList_noBadLeaf xs hc]
  | velem tag props children =>
    simp only [canon] at hc; simp [noBadLeaf, canonList_noBadLeaf children hc]
  | vnull => simp [canon] at hc
  | vundef => simp [canon] at hc
  | vbool b => simp [canon] at hc
  | vnum n => simp [canon] at hc
  | vcomp f props children => simp [canon] at hc

theorem canonList_noBadLeaf (xs : List RawNode) (hc : canonList xs = true) :
    noBadLeafList xs = true := by
  cases xs with
  | nil => simp [noBadLeafList]
  | cons x xs =>
    simp only [canonList, Bool.and_eq_true] at hc
    simp [noBadLeafList, canon_noBadLeaf x hc.1.1, canonList_noBadLeaf xs hc.2]

end

/-! ## Claim C2: normalization is a fixed point on its own output -/

/-- Claim C2: whenever `normalizeVNode` produces a result, that result
contains no function-component node (so a second pass invokes no component),
and re-normalizing it — with any fuel at all, since no component invocation
is left to consume fuel — returns it unchanged. -/
theorem normalizeVNode_idempotent (env : CompEnv) (fuel : Nat) (r v : RawNode)
    (h : normalizeVNode env fuel r = some v) :
    hasComp v = false ∧ ∀ fuel2, normalizeVNode env fuel2 v = some v := by
  have hc := normalizeVNode_canon env fuel r v h
  refine ⟨canon_hasComp v hc, fun fuel2 => ?_⟩
  cases fuel2 with
  | zero => exact canon_normStep_id _ v hc
  | succ n => exact canon_normStep_id _ v hc

/-- Witness for `normalizeVNode_idempotent`: a component that returns a
boolean leaf normalizes to empty text, and re-normalizing that output (with
zero fuel) returns it unchanged. -/
theorem normalizeVNode_idempotent_witness :
    normalizeVNode (fun _ _ => RawNode.vbool true) 1
        (RawNode.vcomp 0 none [RawNode.vnum 2]) = some (RawNode.vstr "") ∧
      hasComp (RawNode.vstr "") = false ∧
      normalizeVNode (fun _ _ => RawNode.vbool true) 0 (RawNode.vstr "") =
        some (RawNode.vstr "") := by
  have h : normalizeVNode (fun _ _ => RawNode.vbool true) 1
      (RawNode.vcomp 0 none [RawNode.vnum 2]) = some (RawNode.vstr "") := rfl
  have := normalizeVNode_idempotent (fun _ _ => RawNode.vbool true) 1
    (RawNode.vcomp 0 none [RawNode.vnum 2]) (RawNode.vstr "") h
  exact ⟨h, this.1, this.2 0⟩

/-! ## Claim C3: filtering and flattening -/

theorem flattenAll_no_arr (cs : List RawNode) : ∀ x ∈ flattenAll cs, isArr x = false := by
  induction cs using flattenAll.induct with
  | case1 => simp [flattenAll]
  | case2 ys xs ih1 ih2 =>
    rw [flattenAll]
    intro x hx
    rcases List.mem_append.1 hx with hx | hx
    · exact ih1 x hx
    · exact ih2 x hx
  | case3 y xs hnotarr ih =>
    rw [flattenAll]
    · intro x hx
      rcases List.mem_cons.1 hx with hx | hx
      · cases y <;> simp_all [isArr]
      · exact ih x hx
    · exact hnotarr

/-- Claim C3, counterexample: an array nested directly inside an array
survives normalization (normalization only filters, it does not flatten), so
nested arrays do remain in the output. -/
theorem normalize_keeps_nested_array :
    normalizeVNode (fun _ _ => RawNode.vnull) 0
        (RawNode.varr [RawNode.varr [RawNode.vnum 1]]) =
      some (RawNode.varr [RawNode.varr [RawNode.vstr "1"]]) ∧
      hasNestedArr (RawNode.varr [RawNode.varr [RawNode.vstr "1"]]) = true :=
  ⟨rfl, rfl⟩

/-- Claim C3, amended: null, undefined, true and false leaves are absent
from every normalizeVNode result; nested arrays, however, are preserved by
normalization (each level only filtered) — deep flattening happens upstream
in createVNode, whose stored children list contains no array and no
null/undefined/boolean entry. -/
theorem normalize_filter_flatten :
    (∀ (env : CompEnv) (fuel : Nat) (r v : RawNode),
        normalizeVNode env fuel r = some v → noBadLeaf v = true) ∧
      ∀ (cs : List RawNode) (x : RawNode), x ∈ createVNodeChildren cs →
        isArr x = false ∧ createKeep x = true := by
  constructor
  · intro env fuel r v h
    exact canon_noBadLeaf v (normalizeVNode_canon env fuel r v h)
  · intro cs x hx
    unfold createVNodeChildren at hx
    exact ⟨flattenAll_no_arr cs x (List.mem_of_mem_filter hx),
      List.of_mem_filter hx⟩

/-- Witness for `normalize_filter_flatten` at concrete inputs. -/
theorem normalize_filter_flatten_witness :
    normalizeVNode (fun _ _ => RawNode.vnull) 0
        (RawNode.varr [RawNode.vbool true, RawNode.vnull, RawNode.vnum 7]) =
      some (RawNode.varr [RawNode.vstr "7"]) ∧
      noBadLeaf (RawNode.varr [RawNode.vstr "7"]) = true ∧
      isArr (RawNode.vnum 3) = false ∧ createKeep (RawNode.vnum 3) = true := by
  have h : normalizeVNode (fun _ _ => RawNode.vnull) 0
      (RawNode.varr [RawNode.vbool true, RawNode.vnull, RawNode.vnum 7]) =
      some (RawNode.varr [RawNode.vstr "7"]) := rfl
  have h2 := normalize_filter_flatten.1 _ 0 _ _ h
  have h3 := normalize_filter_flatten.2 [RawNode.varr [RawNode.vnum 3]] (RawNode.vnum 3)
    (by simp [createVNodeChildren, flattenAll, createKeep])
  exact ⟨h, h2, h3.1, h3.2⟩

/-! ## Claim C7: the props object passed to a function component -/

/-- Claim C7, counterexample: when the child list is empty, the props object
built for the component is not the spec-described one — the `children` key
is present with value `undefined` rather than omitted from the object. -/
theorem componentProps_children_key_present :
    componentProps none [] ≠ specComponentProps none [] ∧
      componentProps none [] = ([], ChildrenEntry.undefVal) ∧
      specComponentProps none [] = ([], ChildrenEntry.absent) := by
  refine ⟨?_, rfl, rfl⟩
  intro h
  simp [componentProps, specComponentProps] at h

/-- Claim C7, amended: resolving a function-component node invokes the
component with the original props plus a `children` entry bound to the
original (non-normalized) child list when that list is non-empty; when the
child list is empty the `children` key is still present, with value
`undefined`. -/
theorem componentProps_amended (env : CompEnv) (fuel : Nat) (f : Nat)
    (props : Option Props) (cs : List RawNode) :
    normalizeVNode env (fuel + 1) (RawNode.vcomp f props cs) =
        normalizeVNode env fuel (env f (componentProps props cs)) ∧
      (cs ≠ [] → componentProps props cs = (props.getD [], ChildrenEntry.list cs)) ∧
      (cs = [] → componentProps props cs = (props.getD [], ChildrenEntry.undefVal)) := by
  refine ⟨rfl, ?_, ?_⟩
  · intro h
    have : 0 < cs.length := List.length_pos.2 h
    simp [componentProps, this]
  · intro h
    subst h
    simp [componentProps]

/-- Witness for `componentProps_amended` at a concrete child list. -/
theorem componentProps_amended_witness :
    ([RawNode.vnum 1] ≠ ([] : List RawNode)) ∧
      componentProps none [RawNode.vnum 1] =
        ([], ChildrenEntry.list [RawNode.vnum 1]) := by
  refine ⟨by simp, ?_⟩
  exact (componentProps_amended (fun _ _ => RawNode.vnull) 0 0 none
    [RawNode.vnum 1]).2.1 (by simp)

/-! ## Basic lemmas towards reconciler convergence -/

theorem list_set_self (l : List α) (i : Nat) (x : α) (h : l[i]? = some x) :
    l.set i x = l := by
  induction l generalizing i with
  | nil => simp at h
  | cons a l ih =>
    cases i with
    | zero =>
      simp only [List.getElem?_cons_zero, Option.some.injEq] at h
      simp [List.set, h]
    | succ n =>
      simp only [List.getElem?_cons_succ] at h
      simp [List.set, ih n h]

theorem alookup_aerase_self [DecidableEq κ] (k : κ) (l : List (κ × α)) :
    alookup k (aerase k l) = none := by
  induction l with
  | nil => rfl
  | cons p l ih =>
    unfold aerase at ih ⊢
    by_cases hp : p.1 = k
    · rw [List.filter_cons_of_neg (by simp [hp])]
      exact ih
    · rw [List.filter_cons_of_pos (by simp [hp])]
      simp only [alookup, hp, if_false]
      exact ih

theorem keyMem_false_alookup [DecidableEq κ] (k : κ) (l : List (κ × α))
    (h : keyMem k l = false) : alookup k l = none := by
  induction l with
  | nil => rfl
  | cons p l ih =>
    simp only [keyMem, List.any_cons, Bool.or_eq_false_iff, decide_eq_false_iff_not] at h
    simp only [alookup, h.1, if_false]
    exact ih (by simpa [keyMem] using h.2)

theorem keyMem_iff [DecidableEq κ] (k : κ) (l : List (κ × α)) :
    keyMem k l = true ↔ ∃ kv ∈ l, kv.1 = k := by
  simp [keyMem]

theorem addEventL_self (m : EvMap) (t : String) (v : PropVal) :
    alookup t (addEventL m t v) = some (addSet ((alookup t m).getD []) v) := by
  unfold addEventL
  exact alookup_aset_self t _ m

theorem addEventL_ne (m : EvMap) (t t2 : String) (v : PropVal) (h : t2 ≠ t) :
    alookup t2 (addEventL m t v) = alookup t2 m := by
  unfold addEventL
  exact alookup_aset_ne t2 t _ m h

theorem removeEventL_self (m : EvMap) (t : String) (v : PropVal) :
    alookup t (removeEventL m t v) =
      (match alookup t m with
       | none => none
       | some s => if (s.erase v).isEmpty then none else some (s.erase v)) := by
  unfold removeEventL
  cases hm : alookup t m with
  | none => simp [hm]
  | some s =>
    by_cases he : (s.erase v).isEmpty
    · simp only [he, if_true]
      exact alookup_aerase_self t m
    · simp only [he, if_false]
      exact alookup_aset_self t _ m

theorem removeEventL_ne (m : EvMap) (t t2 : String) (v : PropVal) (h : t2 ≠ t) :
    alookup t2 (removeEventL m t v) = alookup t2 m := by
  unfold removeEventL
  cases hm : alookup t m with
  | none => rfl
  | some s =>
    by_cases he : (s.erase v).isEmpty
    · simp only [he, if_true]
      exact alookup_aerase_ne t2 t m h
    · simp only [he, if_false]
      exact alookup_aset_ne t2 t _ m h

theorem removeEventL_getD (m : EvMap) (t : String) (v : PropVal) :
    (alookup t (removeEventL m t v)).getD [] = ((alookup t m).getD []).erase v := by
  rw [removeEventL_self]
  cases hm : alookup t m with
  | none => simp
  | some s =>
    by_cases he : (s.erase v).isEmpty
    · simp only [he, if_true]
      rw [List.isEmpty_iff] at he
      simp [he]
    · simp [he]

theorem goodProps_cons (kv : String × PropVal) (ps : Props) :
    goodProps (kv :: ps) = true ↔
      (startsOn kv.1 = true → isCallable kv.2 = true) ∧ kv.2 ≠ PropVal.undef ∧
        (∀ kv2 ∈ ps, classifyCreate kv2.1 kv2.2 ≠ classifyCreate kv.1 kv.2) ∧
        goodProps ps = true := by
  have hiff : ((List.map (fun kv => classifyCreate kv.1 kv.2) ps).contains
      (classifyCreate kv.1 kv.2) = false) ↔
      ∀ kv2 ∈ ps, classifyCreate kv2.1 kv2.2 ≠ classifyCreate kv.1 kv.2 := by
    rw [← Bool.not_eq_true, List.elem_iff]
    constructor
    · intro hno kv2 hkv2 heq
      exact hno (List.mem_map.2 ⟨kv2, hkv2, heq⟩)
    · intro hall hmem
      rcases List.mem_map.1 hmem with ⟨kv2, hkv2, heq⟩
      exact hall kv2 hkv2 heq
  simp only [goodProps, List.all_cons, List.map_cons, nodupActions, Bool.and_eq_true,
    Bool.not_eq_true', Bool.or_eq_true, Bool.not_eq_true]
  rw [hiff]
  constructor
  · rintro ⟨⟨⟨h1, h2⟩, h3⟩, h4, h5⟩
    refine ⟨?_, by simpa using h2, h4, by simp [goodProps, h3, h5]⟩
    intro hon
    rcases h1 with h1 | h1
    · rw [hon] at h1; exact absurd h1 (by simp)
    · exact h1
  · rintro ⟨h1, h2, h3, h4⟩
    refine ⟨⟨⟨?_, by simpa using h2⟩, h4.1⟩, h3, h4.2⟩
    by_cases hon : startsOn kv.1 = true
    · exact Or.inr (h1 hon)
    · exact Or.inl (by simpa using hon)

/-- Under the callable-on-key discipline the two pass classifications
agree. -/
theorem classify_agree_aux (key : String) (value : PropVal)
    (h : startsOn key = true → isCallable value = true) :
    classifyUpdate key value = classifyCreate key value := by
  unfold classifyCreate classifyUpdate
  by_cases hon : startsOn key = true
  · simp [hon, h hon]
  · simp only [Bool.not_eq_true] at hon
    simp [hon]

/-- Under the same discipline the removed-key branch of the reconciler's
`updateAttributes` undoes exactly the action `classifyCreate` prescribes. -/
theorem removeProp_classify (st : ElemSt) (k : String) (v : PropVal)
    (h : startsOn k = true → isCallable v = true) :
    removeProp st k v = match classifyCreate k v with
      | .event t => { st with events := removeEventL st.events t v }
      | .attr slot => { st with attrs := aerase slot st.attrs }
      | .bprop name => { st with bprops := aset name false st.bprops } := by
  unfold removeProp classifyCreate
  by_cases hon : startsOn k = true
  · simp [hon, h hon]
  · simp only [Bool.not_eq_true] at hon
    simp only [hon, Bool.false_and, if_false]
    by_cases hcn : k = "className"
    · simp [hcn]
    · simp only [hcn, if_false]
      by_cases hbp : k ∈ BOOLEAN_PROPS
      · simp [hbp]
      · simp [hbp]

/-- Under the same discipline the changed-key branch of the reconciler's
`updateAttributes` performs the action `classifyCreate` prescribes
(unregister the truthy old handler first for an event key). -/
theorem setProp_classify (st : ElemSt) (k : String) (v ov : PropVal)
    (h : startsOn k = true → isCallable v = true) :
    setProp st k v ov = match classifyCreate k v with
      | .event t =>
        if truthy ov then
          { st with events := addEventL (removeEventL st.events t ov) t v }
        else { st with events := addEventL st.events t v }
      | .attr slot => { st with attrs := aset slot (propToString v) st.attrs }
      | .bprop name => { st with bprops := aset name (truthy v) st.bprops } := by
  unfold setProp
  rw [classify_agree_aux k v h]

theorem alookup_mem [DecidableEq κ] (k : κ) (l : List (κ × α)) (v : α)
    (h : alookup k l = some v) : (k, v) ∈ l := by
  induction l with
  | nil => simp [alookup] at h
  | cons p l ih =>
    by_cases hp : p.1 = k
    · simp only [alookup, hp, if_true, Option.some.injEq] at h
      subst h
      simp [← hp]
    · simp only [alookup, hp, if_false] at h
      simp [ih h]

theorem find?_of_unique {α : Type} (p : α → Bool) (l : List α) (a : α)
    (hmem : a ∈ l) (hp : p a = true) (huniq : ∀ b ∈ l, p b = true → b = a) :
    l.find? p = some a := by
  induction l with
  | nil => simp at hmem
  | cons x l ih =>
    by_cases hx : p x = true
    · rw [List.find?_cons_of_pos _ hx]
      rw [huniq x (by simp) hx]
    · rw [List.find?_cons_of_neg _ (by simpa using hx)]
      rcases List.mem_cons.1 hmem with rfl | hmem2
      · exact absurd hp hx
      · exact ih hmem2 (fun b hb hpb => huniq b (by simp [hb]) hpb)

theorem find?_and_unique {α : Type} (p q : α → Bool) (l : List α) (a : α)
    (h : l.find? p = some a) (huniq : ∀ b ∈ l, p b = true → b = a) :
    l.find? (fun x => p x && q x) = if q a = true then some a else none := by
  induction l with
  | nil => simp [List.find?] at h
  | cons x l ih =>
    by_cases hx : p x = true
    · rw [List.find?_cons_of_pos _ hx] at h
      simp only [Option.some.injEq] at h
      subst h
      by_cases hq : q x = true
      · rw [if_pos hq]
        exact List.find?_cons_of_pos _ (by simp [hx, hq])
      · rw [if_neg hq]
        rw [List.find?_cons_of_neg _ (by simp [hq])]
        rw [List.find?_eq_none]
        intro b hb
        simp only [Bool.and_eq_true, not_and]
        intro hpb hqb
        rw [huniq b (by simp [hb]) hpb] at hqb
        exact absurd hqb (by simpa using hq)
    · rw [List.find?_cons_of_neg _ (by simpa using hx)] at h
      rw [List.find?_cons_of_neg _ (by simp [hx])]
      exact ih h (fun b hb hpb => huniq b (by simp [hb]) hpb)

theorem find?_and_unique_pos {α : Type} (p q : α → Bool) (l : List α) (a : α)
    (h : l.find? p = some a) (huniq : ∀ b ∈ l, p b = true → b = a)
    (hqa : q a = true) : l.find? (fun x => p x && q x) = some a := by
  rw [find?_and_unique p q l a h huniq, if_pos hqa]

theorem find?_and_unique_neg {α : Type} (p q : α → Bool) (l : List α) (a : α)
    (h : l.find? p = some a) (huniq : ∀ b ∈ l, p b = true → b = a)
    (hqa : q a = false) : l.find? (fun x => p x && q x) = none := by
  rw [find?_and_unique p q l a h huniq, if_neg (by simp [hqa])]

theorem find?_none_and {α : Type} (p q : α → Bool) (l : List α)
    (h : l.find? p = none) : l.find? (fun x => p x && q x) = none := by
  rw [List.find?_eq_none] at h ⊢
  intro x hx
  simp [h x hx]

theorem classify_event_facts (k : String) (v : PropVal) (t : String)
    (h : classifyCreate k v = .event t) :
    startsOn k = true ∧ isCallable v = true ∧ t = eventTypeOf k := by
  unfold classifyCreate at h
  by_cases hon : (startsOn k && isCallable v) = true
  · rw [if_pos hon] at h
    simp only [AttrAction.event.injEq] at h
    simp only [Bool.and_eq_true] at hon
    exact ⟨hon.1, hon.2, h.symm⟩
  · rw [if_neg hon] at h
    split at h <;> try simp_all
    split at h <;> simp_all

theorem classify_not_event_of_not_on (k : String) (v : PropVal)
    (hon : startsOn k = false) : ∀ t, classifyCreate k v ≠ .event t := by
  intro t h
  exact absurd (classify_event_facts k v t h).1 (by simp [hon])

theorem classify_key_only (k : String) (v w : PropVal) (hon : startsOn k = false) :
    classifyCreate k v = classifyCreate k w := by
  unfold classifyCreate
  simp [hon]

theorem classify_attr_not_on (k : String) (v : PropVal) (slot : String)
    (hcall : startsOn k = true → isCallable v = true)
    (h : classifyCreate k v = .attr slot) : startsOn k = false := by
  by_cases hon : startsOn k = true
  · unfold classifyCreate at h
    rw [if_pos (by simp [hon, hcall hon])] at h
    exact absurd h (by simp)
  · simpa using hon

theorem classify_bprop_not_on (k : String) (v : PropVal) (name : String)
    (hcall : startsOn k = true → isCallable v = true)
    (h : classifyCreate k v = .bprop name) : startsOn k = false := by
  by_cases hon : startsOn k = true
  · unfold classifyCreate at h
    rw [if_pos (by simp [hon, hcall hon])] at h
    exact absurd h (by simp)
  · simpa using hon

theorem goodProps_head_call (ps : Props) (hg : goodProps ps = true) :
    ∀ kv ∈ ps, (startsOn kv.1 = true → isCallable kv.2 = true) ∧
      kv.2 ≠ PropVal.undef := by
  induction ps with
  | nil => simp
  | cons kv ps ih =>
    rw [goodProps_cons] at hg
    intro kv2 hkv2
    rcases List.mem_cons.1 hkv2 with rfl | hm
    · exact ⟨hg.1, hg.2.1⟩
    · exact ih hg.2.2.2 kv2 hm

theorem goodProps_unique (ps : Props) (hg : goodProps ps = true) :
    ∀ a ∈ ps, ∀ b ∈ ps, classifyCreate a.1 a.2 = classifyCreate b.1 b.2 → a = b := by
  induction ps with
  | nil => simp
  | cons kv ps ih =>
    rw [goodProps_cons] at hg
    intro a ha b hb heq
    rcases List.mem_cons.1 ha with rfl | ha2 <;> rcases List.mem_cons.1 hb with rfl | hb2
    · rfl
    · exact absurd heq.symm (hg.2.2.1 b hb2)
    · exact absurd heq (hg.2.2.1 a ha2)
    · exact ih hg.2.2.2 a ha2 b hb2 heq

/-! ## Per-slot characterisation of the materializer's attribute pass -/

theorem applyProps_attrs (ps : Props) (st : ElemSt) (slot : String)
    (hg : goodProps ps = true) :
    alookup slot (applyProps st ps).attrs =
      match ps.find? (fun kv => classifyCreate kv.1 kv.2 == AttrAction.attr slot) with
      | some kv => some (propToString kv.2)
      | none => alookup slot st.attrs := by
  induction ps generalizing st with
  | nil => rfl
  | cons kv ps ih =>
    obtain ⟨k, v⟩ := kv
    rw [goodProps_cons] at hg
    have huniq := hg.2.2.1
    simp only [applyProps]
    rw [ih (applyProp st k v) hg.2.2.2]
    cases hc : classifyCreate k v with
    | event t =>
      rw [List.find?_cons_of_neg _ (by simp [hc])]
      have hst : (applyProp st k v).attrs = st.attrs := by simp [applyProp, hc]
      rw [hst]
    | bprop name =>
      rw [List.find?_cons_of_neg _ (by simp [hc])]
      have hst : (applyProp st k v).attrs = st.attrs := by simp [applyProp, hc]
      rw [hst]
    | attr slot2 =>
      by_cases hslot : slot2 = slot
      · subst hslot
        rw [List.find?_cons_of_pos _ (by simp [hc])]
        have hnone : ps.find?
            (fun kv => classifyCreate kv.1 kv.2 == AttrAction.attr slot2) = none := by
          rw [List.find?_eq_none]
          intro b hb
          simp only [beq_iff_eq]
          intro hb2
          exact huniq b hb (hb2.trans hc.symm)
        rw [hnone]
        simp [applyProp, hc, alookup_aset_self]
      · rw [List.find?_cons_of_neg _ (by simp [hc, hslot])]
        have hst : alookup slot (applyProp st k v).attrs = alookup slot st.attrs := by
          simp only [applyProp, hc]
          exact alookup_aset_ne slot slot2 _ st.attrs (fun hh => hslot hh.symm)
        rw [hst]

theorem applyProps_bprops (ps : Props) (st : ElemSt) (name : String)
    (hg : goodProps ps = true) :
    alookup name (applyProps st ps).bprops =
      match ps.find? (fun kv => classifyCreate kv.1 kv.2 == AttrAction.bprop name) with
      | some kv => some (truthy kv.2)
      | none => alookup name st.bprops := by
  induction ps generalizing st with
  | nil => rfl
  | cons kv ps ih =>
    obtain ⟨k, v⟩ := kv
    rw [goodProps_cons] at hg
    have huniq := hg.2.2.1
    simp only [applyProps]
    rw [ih (applyProp st k v) hg.2.2.2]
    cases hc : classifyCreate k v with
    | event t =>
      rw [List.find?_cons_of_neg _ (by simp [hc])]
      have hst : (applyProp st k v).bprops = st.bprops := by simp [applyProp, hc]
      rw [hst]
    | attr slot =>
      rw [List.find?_cons_of_neg _ (by simp [hc])]
      have hst : (applyProp st k v).bprops = st.bprops := by simp [applyProp, hc]
      rw [hst]
    | bprop name2 =>
      by_cases hname : name2 = name
      · subst hname
        rw [List.find?_cons_of_pos _ (by simp [hc])]
        have hnone : ps.find?
            (fun kv => classifyCreate kv.1 kv.2 == AttrAction.bprop name2) = none := by
          rw [List.find?_eq_none]
          intro b hb
          simp only [beq_iff_eq]
          intro hb2
          exact huniq b hb (hb2.trans hc.symm)
        rw [hnone]
        simp [applyProp, hc, alookup_aset_self]
      · rw [List.find?_cons_of_neg _ (by simp [hc, hname])]
        have hst : alookup name (applyProp st k v).bprops = alookup name st.bprops := by
          simp only [applyProp, hc]
          exact alookup_aset_ne name name2 _ st.bprops (fun hh => hname hh.symm)
        rw [hst]

theorem applyProps_events (ps : Props) (st : ElemSt) (t : String)
    (hg : goodProps ps = true) :
    alookup t (applyProps st ps).events =
      match ps.find? (fun kv => classifyCreate kv.1 kv.2 == AttrAction.event t) with
      | some kv => some (addSet ((alookup t st.events).getD []) kv.2)
      | none => alookup t st.events := by
  induction ps generalizing st with
  | nil => rfl
  | cons kv ps ih =>
    obtain ⟨k, v⟩ := kv
    rw [goodProps_cons] at hg
    have huniq := hg.2.2.1
    simp only [applyProps]
    rw [ih (applyProp st k v) hg.2.2.2]
    cases hc : classifyCreate k v with
    | attr slot =>
      rw [List.find?_cons_of_neg _ (by simp [hc])]
      have hst : (applyProp st k v).events = st.events := by simp [applyProp, hc]
      rw [hst]
    | bprop name =>
      rw [List.find?_cons_of_neg _ (by simp [hc])]
      have hst : (applyProp st k v).events = st.events := by simp [applyProp, hc]
      rw [hst]
    | event t2 =>
      by_cases ht : t2 = t
      · subst ht
        rw [List.find?_cons_of_pos _ (by simp [hc])]
        have hnone : ps.find?
            (fun kv => classifyCreate kv.1 kv.2 == AttrAction.event t2) = none := by
          rw [List.find?_eq_none]
          intro b hb
          simp only [beq_iff_eq]
          intro hb2
          exact huniq b hb (hb2.trans hc.symm)
        rw [hnone]
        have hst : (applyProp st k v).events = addEventL st.events t2 v := by
          simp [applyProp, hc]
        rw [hst, addEventL_self]
      · rw [List.find?_cons_of_neg _ (by simp [hc, ht])]
        have hst : alookup t (applyProp st k v).events = alookup t st.events := by
          simp only [applyProp, hc]
          exact addEventL_ne st.events t2 t v (fun hh => ht hh.symm)
        rw [hst]

/-! ## Per-slot characterisation of the reconciler's attribute diff

The removal fold and the changed-key fold of `updateAttributesU`, slot by
slot. -/

theorem remFold_attrs (op np : Props) (st : ElemSt) (slot : String)
    (hg : goodProps op = true) :
    alookup slot ((op.foldl (fun s kv =>
        if keyMem kv.1 np then s else removeProp s kv.1 kv.2) st)).attrs =
      match op.find? (fun kv =>
          (classifyCreate kv.1 kv.2 == AttrAction.attr slot) && !keyMem kv.1 np) with
      | some _ => none
      | none => alookup slot st.attrs := by
  induction op generalizing st with
  | nil => rfl
  | cons kv op ih =>
    obtain ⟨k, v⟩ := kv
    rw [goodProps_cons] at hg
    have huniq := hg.2.2.1
    simp only [List.foldl_cons]
    by_cases hk : keyMem k np = true
    · rw [if_pos hk, ih st hg.2.2.2]
      rw [List.find?_cons_of_neg _ (by simp [hk])]
    · rw [if_neg hk, ih _ hg.2.2.2, removeProp_classify st k v hg.1]
      rw [Bool.not_eq_true] at hk
      cases hc : classifyCreate k v with
      | event t =>
        rw [List.find?_cons_of_neg _ (by simp [hc])]
      | bprop name =>
        rw [List.find?_cons_of_neg _ (by simp [hc])]
      | attr slot2 =>
        by_cases hslot : slot2 = slot
        · subst hslot
          rw [List.find?_cons_of_pos _ (by simp [hc, hk])]
          have hnone : op.find? (fun kv =>
              (classifyCreate kv.1 kv.2 == AttrAction.attr slot2) &&
                !keyMem kv.1 np) = none := by
            rw [List.find?_eq_none]
            intro b hb
            simp only [Bool.and_eq_true, beq_iff_eq, not_and]
            intro hb2
            exact absurd (hb2.trans hc.symm) (fun hh => huniq b hb hh)
          rw [hnone]
          simp [alookup_aerase_self]
        · rw [List.find?_cons_of_neg _ (by simp [hc, hslot])]
          have hst : alookup slot (aerase slot2 st.attrs) = alookup slot st.attrs :=
            alookup_aerase_ne slot slot2 st.attrs (fun hh => hslot hh.symm)
          simp only []
          rw [hst]

theorem remFold_bprops (op np : Props) (st : ElemSt) (name : String)
    (hg : goodProps op = true) :
    alookup name ((op.foldl (fun s kv =>
        if keyMem kv.1 np then s else removeProp s kv.1 kv.2) st)).bprops =
      match op.find? (fun kv =>
          (classifyCreate kv.1 kv.2 == AttrAction.bprop name) && !keyMem kv.1 np) with
      | some _ => some false
      | none => alookup name st.bprops := by
  induction op generalizing st with
  | nil => rfl
  | cons kv op ih =>
    obtain ⟨k, v⟩ := kv
    rw [goodProps_cons] at hg
    have huniq := hg.2.2.1
    simp only [List.foldl_cons]
    by_cases hk : keyMem k np = true
    · rw [if_pos hk, ih st hg.2.2.2]
      rw [List.find?_cons_of_neg _ (by simp [hk])]
    · rw [if_neg hk, ih _ hg.2.2.2, removeProp_classify st k v hg.1]
      rw [Bool.not_eq_true] at hk
      cases hc : classifyCreate k v with
      | event t =>
        rw [List.find?_cons_of_neg _ (by simp [hc])]
      | attr slot =>
        rw [List.find?_cons_of_neg _ (by simp [hc])]
      | bprop name2 =>
        by_cases hname : name2 = name
        · subst hname
          rw [List.find?_cons_of_pos _ (by simp [hc, hk])]
          have hnone : op.find? (fun kv =>
              (classifyCreate kv.1 kv.2 == AttrAction.bprop name2) &&
                !keyMem kv.1 np) = none := by
            rw [List.find?_eq_none]
            intro b hb
            simp only [Bool.and_eq_true, beq_iff_eq, not_and]
            intro hb2
            exact absurd (hb2.trans hc.symm) (fun hh => huniq b hb hh)
          rw [hnone]
          simp [alookup_aset_self]
        · rw [List.find?_cons_of_neg _ (by simp [hc, hname])]
          have hst : alookup name (aset name2 false st.bprops) =
              alookup name st.bprops :=
            alookup_aset_ne name name2 false st.bprops (fun hh => hname hh.symm)
          simp only []
          rw [hst]

theorem remFold_events (op np : Props) (st : ElemSt) (t : String)
    (hg : goodProps op = true) :
    alookup t ((op.foldl (fun s kv =>
        if keyMem kv.1 np then s else removeProp s kv.1 kv.2) st)).events =
      match op.find? (fun kv =>
          (classifyCreate kv.1 kv.2 == AttrAction.event t) && !keyMem kv.1 np) with
      | some kv =>
        (match alookup t st.events with
         | none => none
         | some s => if (s.erase kv.2).isEmpty then none else some (s.erase kv.2))
      | none => alookup t st.events := by
  induction op generalizing st with
  | nil => rfl
  | cons kv op ih =>
    obtain ⟨k, v⟩ := kv
    rw [goodProps_cons] at hg
    have huniq := hg.2.2.1
    simp only [List.foldl_cons]
    by_cases hk : keyMem k np = true
    · rw [if_pos hk, ih st hg.2.2.2]
      rw [List.find?_cons_of_neg _ (by simp [hk])]
    · rw [if_neg hk, ih _ hg.2.2.2, removeProp_classify st k v hg.1]
      rw [Bool.not_eq_true] at hk
      cases hc : classifyCreate k v with
      | attr slot =>
        rw [List.find?_cons_of_neg _ (by simp [hc])]
      | bprop name =>
        rw [List.find?_cons_of_neg _ (by simp [hc])]
      | event t2 =>
        by_cases ht : t2 = t
        · subst ht
          rw [List.find?_cons_of_pos _ (by simp [hc, hk])]
          have hnone : op.find? (fun kv =>
              (classifyCreate kv.1 kv.2 == AttrAction.event t2) &&
                !keyMem kv.1 np) = none := by
            rw [List.find?_eq_none]
            intro b hb
            simp only [Bool.and_eq_true, beq_iff_eq, not_and]
            intro hb2
            exact absurd (hb2.trans hc.symm) (fun hh => huniq b hb hh)
          rw [hnone]
          simp only []
          rw [removeEventL_self]
        · rw [List.find?_cons_of_neg _ (by simp [hc, ht])]
          have hst : alookup t (removeEventL st.events t2 v) = alookup t st.events :=
            removeEventL_ne st.events t2 t v (fun hh => ht hh.symm)
          simp only []
          rw [hst]

theorem updFold_attrs (np op : Props) (st : ElemSt) (slot : String)
    (hg : goodProps np = true) :
    alookup slot ((np.foldl (fun s kv =>
        if (alookup kv.1 op).getD .undef = kv.2 then s
        else setProp s kv.1 kv.2 ((alookup kv.1 op).getD .undef)) st)).attrs =
      match np.find? (fun kv =>
          (classifyCreate kv.1 kv.2 == AttrAction.attr slot) &&
            !((alookup kv.1 op).getD .undef == kv.2)) with
      | some kv => some (propToString kv.2)
      | none => alookup slot st.attrs := by
  induction np generalizing st with
  | nil => rfl
  | cons kv np ih =>
    obtain ⟨k, v⟩ := kv
    rw [goodProps_cons] at hg
    have huniq := hg.2.2.1
    simp only [List.foldl_cons]
    by_cases hskip : (alookup k op).getD .undef = v
    · rw [if_pos hskip, ih st hg.2.2.2]
      rw [List.find?_cons_of_neg _ (by simp [hskip])]
    · rw [if_neg hskip, ih _ hg.2.2.2, setProp_classify st k v _ hg.1]
      cases hc : classifyCreate k v with
      | event t =>
        rw [List.find?_cons_of_neg _ (by simp [hc])]
        dsimp only
        rw [apply_ite ElemSt.attrs]
        simp
      | bprop name =>
        rw [List.find?_cons_of_neg _ (by simp [hc])]
      | attr slot2 =>
        by_cases hslot : slot2 = slot
        · subst hslot
          rw [List.find?_cons_of_pos _ (by simp [hc, hskip])]
          have hnone : np.find? (fun kv =>
              (classifyCreate kv.1 kv.2 == AttrAction.attr slot2) &&
                !((alookup kv.1 op).getD .undef == kv.2)) = none := by
            rw [List.find?_eq_none]
            intro b hb
            simp only [Bool.and_eq_true, beq_iff_eq, not_and]
            intro hb2
            exact absurd (hb2.trans hc.symm) (fun hh => huniq b hb hh)
          rw [hnone]
          simp [alookup_aset_self]
        · rw [List.find?_cons_of_neg _ (by simp [hc, hslot])]
          have hst : alookup slot (aset slot2 (propToString v) st.attrs) =
              alookup slot st.attrs :=
            alookup_aset_ne slot slot2 _ st.attrs (fun hh => hslot hh.symm)
          simp only []
          rw [hst]

theorem updFold_bprops (np op : Props) (st : ElemSt) (name : String)
    (hg : goodProps np = true) :
    alookup name ((np.foldl (fun s kv =>
        if (alookup kv.1 op).getD .undef = kv.2 then s
        else setProp s kv.1 kv.2 ((alookup kv.1 op).getD .undef)) st)).bprops =
      match np.find? (fun kv =>
          (classifyCreate kv.1 kv.2 == AttrAction.bprop name) &&
            !((alookup kv.1 op).getD .undef == kv.2)) with
      | some kv => some (truthy kv.2)
      | none => alookup name st.bprops := by
  induction np generalizing st with
  | nil => rfl
  | cons kv np ih =>
    obtain ⟨k, v⟩ := kv
    rw [goodProps_cons] at hg
    have huniq := hg.2.2.1
    simp only [List.foldl_cons]
    by_cases hskip : (alookup k op).getD .undef = v
    · rw [if_pos hskip, ih st hg.2.2.2]
      rw [List.find?_cons_of_neg _ (by simp [hskip])]
    · rw [if_neg hskip, ih _ hg.2.2.2, setProp_classify st k v _ hg.1]
      cases hc : classifyCreate k v with
      | event t =>
        rw [List.find?_cons_of_neg _ (by simp [hc])]
        dsimp only
        rw [apply_ite ElemSt.bprops]
        simp
      | attr slot =>
        rw [List.find?_cons_of_neg _ (by simp [hc])]
      | bprop name2 =>
        by_cases hname : name2 = name
        · subst hname
          rw [List.find?_cons_of_pos _ (by simp [hc, hskip])]
          have hnone : np.find? (fun kv =>
              (classifyCreate kv.1 kv.2 == AttrAction.bprop name2) &&
                !((alookup kv.1 op).getD .undef == kv.2)) = none := by
            rw [List.find?_eq_none]
            intro b hb
            simp only [Bool.and_eq_true, beq_iff_eq, not_and]
            intro hb2
            exact absurd (hb2.trans hc.symm) (fun hh => huniq b hb hh)
          rw [hnone]
          simp [alookup_aset_self]
        · rw [List.find?_cons_of_neg _ (by simp [hc, hname])]
          have hst : alookup name (aset name2 (truthy v) st.bprops) =
              alookup name st.bprops :=
            alookup_aset_ne name name2 _ st.bprops (fun hh => hname hh.symm)
          simp only []
          rw [hst]

theorem updFold_events (np op : Props) (st : ElemSt) (t : String)
    (hg : goodProps np = true) :
    alookup t ((np.foldl (fun s kv =>
        if (alookup kv.1 op).getD .undef = kv.2 then s
        else setProp s kv.1 kv.2 ((alookup kv.1 op).getD .undef)) st)).events =
      match np.find? (fun kv =>
          (classifyCreate kv.1 kv.2 == AttrAction.event t) &&
            !((alookup kv.1 op).getD .undef == kv.2)) with
      | some kv =>
        some (addSet (if truthy ((alookup kv.1 op).getD .undef)
            then ((alookup t st.events).getD []).erase ((alookup kv.1 op).getD .undef)
            else (alookup t st.events).getD []) kv.2)
      | none => alookup t st.events := by
  induction np generalizing st with
  | nil => rfl
  | cons kv np ih =>
    obtain ⟨k, v⟩ := kv
    rw [goodProps_cons] at hg
    have huniq := hg.2.2.1
    simp only [List.foldl_cons]
    by_cases hskip : (alookup k op).getD .undef = v
    · rw [if_pos hskip, ih st hg.2.2.2]
      rw [List.find?_cons_of_neg _ (by simp [hskip])]
    · rw [if_neg hskip, ih _ hg.2.2.2, setProp_classify st k v _ hg.1]
      cases hc : classifyCreate k v with
      | attr slot =>
        rw [List.find?_cons_of_neg _ (by simp [hc])]
      | bprop name =>
        rw [List.find?_cons_of_neg _ (by simp [hc])]
      | event t2 =>
        by_cases ht : t2 = t
        · subst ht
          rw [List.find?_cons_of_pos _ (by simp [hc, hskip])]
          have hnone : np.find? (fun kv =>
              (classifyCreate kv.1 kv.2 == AttrAction.event t2) &&
                !((alookup kv.1 op).getD .undef == kv.2)) = none := by
            rw [List.find?_eq_none]
            intro b hb
            simp only [Bool.and_eq_true, beq_iff_eq, not_and]
            intro hb2
            exact absurd (hb2.trans hc.symm) (fun hh => huniq b hb hh)
          rw [hnone]
          by_cases htr : truthy ((alookup k op).getD .undef) = true
          · simp [htr, addEventL_self, removeEventL_getD]
          · simp [htr, addEventL_self]
        · rw [List.find?_cons_of_neg _ (by simp [hc, ht])]
          have hne : t ≠ t2 := fun hh => ht hh.symm
          by_cases htr : truthy ((alookup k op).getD .undef) = true
          · simp [htr, addEventL_ne _ _ _ _ hne, removeEventL_ne _ _ _ _ hne]
          · simp [htr, addEventL_ne _ _ _ _ hne]

/-! ## Assembly: the attribute diff converges to the fresh attribute pass -/

theorem truthy_of_callable (v : PropVal) (h : isCallable v = true) : truthy v = true := by
  cases v <;> simp_all [isCallable, truthy]

theorem alookup_eq_none_iff [DecidableEq κ] (k : κ) (l : List (κ × α)) :
    alookup k l = none ↔ ∀ kv ∈ l, kv.1 ≠ k := by
  induction l with
  | nil => simp [alookup]
  | cons p l ih =>
    by_cases hp : p.1 = k
    · simp [alookup, hp]
    · simp [alookup, hp, ih]

theorem getD_undef_peel (k : String) (l : Props) (v : PropVal)
    (hv : v ≠ PropVal.undef) (h : (alookup k l).getD .undef = v) :
    alookup k l = some v := by
  cases hl : alookup k l with
  | none => rw [hl] at h; simp at h; exact absurd h.symm hv
  | some w => rw [hl] at h; simp at h; rw [h]

theorem goodPropsO_getD (p : Option Props) (h : goodPropsO p = true) :
    goodProps (p.getD []) = true := by
  cases p with
  | none => rfl
  | some ps => exact h

theorem goodProps_mem_call (ps : Props) (hg : goodProps ps = true)
    (kv : String × PropVal) (hm : kv ∈ ps) :
    (startsOn kv.1 = true → isCallable kv.2 = true) ∧ kv.2 ≠ PropVal.undef :=
  goodProps_head_call ps hg kv hm

theorem updateAttributesU_eq (st : ElemSt) (np op : Option Props) :
    updateAttributesU st np op =
      (np.getD []).foldl (fun s kv =>
        if (alookup kv.1 (op.getD [])).getD .undef = kv.2 then s
        else setProp s kv.1 kv.2 ((alookup kv.1 (op.getD [])).getD .undef))
        ((op.getD []).foldl (fun s kv =>
          if keyMem kv.1 (np.getD []) then s else removeProp s kv.1 kv.2) st) := rfl

theorem updAttr_ext (pn po : Props) (hn : goodProps pn = true)
    (ho : goodProps po = true) (slot : String) :
    alookup slot ((pn.foldl (fun s kv =>
        if (alookup kv.1 po).getD .undef = kv.2 then s
        else setProp s kv.1 kv.2 ((alookup kv.1 po).getD .undef))
        (po.foldl (fun s kv =>
          if keyMem kv.1 pn then s else removeProp s kv.1 kv.2)
          (applyProps ⟨[], [], []⟩ po)))).attrs =
      alookup slot (applyProps ⟨[], [], []⟩ pn).attrs := by
  rw [updFold_attrs pn po _ slot hn, applyProps_attrs pn _ slot hn]
  cases hfn : pn.find? (fun kv => classifyCreate kv.1 kv.2 == AttrAction.attr slot) with
  | some a =>
    have hpreda := List.find?_some hfn
    have hmema := List.mem_of_find?_eq_some hfn
    rw [beq_iff_eq] at hpreda
    have huniq : ∀ b ∈ pn,
        (fun kv => classifyCreate kv.1 kv.2 == AttrAction.attr slot) b = true → b = a := by
      intro b hb hpb
      rw [beq_iff_eq] at hpb
      exact goodProps_unique pn hn b hb a hmema (hpb.trans hpreda.symm)
    rw [find?_and_unique _ _ pn a hfn huniq]
    by_cases hq : (alookup a.1 po).getD PropVal.undef = a.2
    · have hqf : (!((alookup a.1 po).getD PropVal.undef == a.2)) = false := by simp [hq]
      rw [hqf, if_neg (by simp)]
      have hva : a.2 ≠ PropVal.undef := (goodProps_mem_call pn hn a hmema).2
      have hlook : alookup a.1 po = some a.2 := getD_undef_peel a.1 po a.2 hva hq
      have hmempo : a ∈ po := by
        have := alookup_mem a.1 po a.2 hlook
        simpa using this
      have hfo : po.find?
          (fun kv => classifyCreate kv.1 kv.2 == AttrAction.attr slot) = some a := by
        apply find?_of_unique _ _ _ hmempo (by simp [hpreda])
        intro b hb hpb
        rw [beq_iff_eq] at hpb
        exact goodProps_unique po ho b hb a hmempo (hpb.trans hpreda.symm)
      have huniqo : ∀ b ∈ po,
          (fun kv => classifyCreate kv.1 kv.2 == AttrAction.attr slot) b = true →
            b = a := by
        intro b hb hpb
        rw [beq_iff_eq] at hpb
        exact goodProps_unique po ho b hb a hmempo (hpb.trans hpreda.symm)
      rw [remFold_attrs po pn _ slot ho]
      rw [find?_and_unique _ _ po a hfo huniqo]
      have hkm : keyMem a.1 pn = true :=
        (keyMem_iff a.1 pn).2 ⟨a, hmema, rfl⟩
      rw [if_neg (by simp [hkm])]
      rw [applyProps_attrs po _ slot ho, hfo]
    · have hqt : (!((alookup a.1 po).getD PropVal.undef == a.2)) = true := by simp [hq]
      rw [hqt, if_pos rfl]
  | none =>
    rw [find?_none_and _ _ pn hfn]
    rw [remFold_attrs po pn _ slot ho]
    cases hfo : po.find?
        (fun kv => classifyCreate kv.1 kv.2 == AttrAction.attr slot) with
    | none =>
      rw [find?_none_and _ _ po hfo]
      rw [applyProps_attrs po _ slot ho, hfo]
    | some b =>
      have hpredb := List.find?_some hfo
      have hmemb := List.mem_of_find?_eq_some hfo
      rw [beq_iff_eq] at hpredb
      have huniqo : ∀ c ∈ po,
          (fun kv => classifyCreate kv.1 kv.2 == AttrAction.attr slot) c = true →
            c = b := by
        intro c hc hpc
        rw [beq_iff_eq] at hpc
        exact goodProps_unique po ho c hc b hmemb (hpc.trans hpredb.symm)
      have hkm : keyMem b.1 pn = false := by
        by_contra hkm2
        rw [Bool.not_eq_false] at hkm2
        rcases (keyMem_iff b.1 pn).1 hkm2 with ⟨c, hcmem, hc1⟩
        have hon : startsOn b.1 = false :=
          classify_attr_not_on b.1 b.2 slot (goodProps_mem_call po ho b hmemb).1 hpredb
        have hcc : classifyCreate c.1 c.2 = AttrAction.attr slot := by
          have honc : startsOn c.1 = false := by rw [hc1]; exact hon
          have h1 : classifyCreate c.1 c.2 = classifyCreate c.1 b.2 :=
            classify_key_only c.1 c.2 b.2 honc
          rw [h1, hc1]
          exact hpredb
        rw [List.find?_eq_none] at hfn
        exact hfn c hcmem (by simp [hcc])
      rw [find?_and_unique _ _ po b hfo huniqo]
      rw [if_pos (by simp [hkm])]
      rfl

theorem classify_event_of (k : String) (v : PropVal) (h1 : startsOn k = true)
    (h2 : isCallable v = true) : classifyCreate k v = .event (eventTypeOf k) := by
  unfold classifyCreate
  simp [h1, h2]

theorem addSet_nil (v : PropVal) : addSet ([] : List PropVal) v = [v] := by
  simp [addSet]

theorem updBprop_ext (pn po : Props) (hn : goodProps pn = true)
    (ho : goodProps po = true) (name : String) :
    lookupD false name ((pn.foldl (fun s kv =>
        if (alookup kv.1 po).getD .undef = kv.2 then s
        else setProp s kv.1 kv.2 ((alookup kv.1 po).getD .undef))
        (po.foldl (fun s kv =>
          if keyMem kv.1 pn then s else removeProp s kv.1 kv.2)
          (applyProps ⟨[], [], []⟩ po))).bprops) =
      lookupD false name ((applyProps ⟨[], [], []⟩ pn).bprops) := by
  unfold lookupD
  rw [updFold_bprops pn po _ name hn, applyProps_bprops pn _ name hn]
  cases hfn : pn.find? (fun kv => classifyCreate kv.1 kv.2 == AttrAction.bprop name) with
  | some a =>
    have hpreda := List.find?_some hfn
    have hmema := List.mem_of_find?_eq_some hfn
    rw [beq_iff_eq] at hpreda
    have huniq : ∀ b ∈ pn,
        (fun kv => classifyCreate kv.1 kv.2 == AttrAction.bprop name) b = true →
          b = a := by
      intro b hb hpb
      rw [beq_iff_eq] at hpb
      exact goodProps_unique pn hn b hb a hmema (hpb.trans hpreda.symm)
    rw [find?_and_unique _ _ pn a hfn huniq]
    by_cases hq : (alookup a.1 po).getD PropVal.undef = a.2
    · have hqf : (!((alookup a.1 po).getD PropVal.undef == a.2)) = false := by simp [hq]
      rw [hqf, if_neg (by simp)]
      have hva : a.2 ≠ PropVal.undef := (goodProps_mem_call pn hn a hmema).2
      have hlook : alookup a.1 po = some a.2 := getD_undef_peel a.1 po a.2 hva hq
      have hmempo : a ∈ po := by
        have := alookup_mem a.1 po a.2 hlook
        simpa using this
      have hfo : po.find?
          (fun kv => classifyCreate kv.1 kv.2 == AttrAction.bprop name) = some a := by
        apply find?_of_unique _ _ _ hmempo (by simp [hpreda])
        intro b hb hpb
        rw [beq_iff_eq] at hpb
        exact goodProps_unique po ho b hb a hmempo (hpb.trans hpreda.symm)
      have huniqo : ∀ b ∈ po,
          (fun kv => classifyCreate kv.1 kv.2 == AttrAction.bprop name) b = true →
            b = a := by
        intro b hb hpb
        rw [beq_iff_eq] at hpb
        exact goodProps_unique po ho b hb a hmempo (hpb.trans hpreda.symm)
      rw [remFold_bprops po pn _ name ho]
      rw [find?_and_unique _ _ po a hfo huniqo]
      have hkm : keyMem a.1 pn = true :=
        (keyMem_iff a.1 pn).2 ⟨a, hmema, rfl⟩
      rw [if_neg (by simp [hkm])]
      rw [applyProps_bprops po _ name ho, hfo]
    · have hqt : (!((alookup a.1 po).getD PropVal.undef == a.2)) = true := by simp [hq]
      rw [hqt, if_pos rfl]
  | none =>
    rw [find?_none_and _ _ pn hfn]
    rw [remFold_bprops po pn _ name ho]
    cases hfo : po.find?
        (fun kv => classifyCreate kv.1 kv.2 == AttrAction.bprop name) with
    | none =>
      rw [find?_none_and _ _ po hfo]
      rw [applyProps_bprops po _ name ho, hfo]
    | some b =>
      have hpredb := List.find?_some hfo
      have hmemb := List.mem_of_find?_eq_some hfo
      rw [beq_iff_eq] at hpredb
      have huniqo : ∀ c ∈ po,
          (fun kv => classifyCreate kv.1 kv.2 == AttrAction.bprop name) c = true →
            c = b := by
        intro c hc hpc
        rw [beq_iff_eq] at hpc
        exact goodProps_unique po ho c hc b hmemb (hpc.trans hpredb.symm)
      have hkm : keyMem b.1 pn = false := by
        by_contra hkm2
        rw [Bool.not_eq_false] at hkm2
        rcases (keyMem_iff b.1 pn).1 hkm2 with ⟨c, hcmem, hc1⟩
        have hon : startsOn b.1 = false :=
          classify_bprop_not_on b.1 b.2 name (goodProps_mem_call po ho b hmemb).1 hpredb
        have hcc : classifyCreate c.1 c.2 = AttrAction.bprop name := by
          have honc : startsOn c.1 = false := by rw [hc1]; exact hon
          have h1 : classifyCreate c.1 c.2 = classifyCreate c.1 b.2 :=
            classify_key_only c.1 c.2 b.2 honc
          rw [h1, hc1]
          exact hpredb
        rw [List.find?_eq_none] at hfn
        exact hfn c hcmem (by simp [hcc])
      rw [find?_and_unique _ _ po b hfo huniqo]
      rw [if_pos (by simp [hkm])]
      simp [alookup]

theorem updEvents_ext (pn po : Props) (hn : goodProps pn = true)
    (ho : goodProps po = true) (t : String) :
    lookupD [] t ((pn.foldl (fun s kv =>
        if (alookup kv.1 po).getD .undef = kv.2 then s
        else setProp s kv.1 kv.2 ((alookup kv.1 po).getD .undef))
        (po.foldl (fun s kv =>
          if keyMem kv.1 pn then s else removeProp s kv.1 kv.2)
          (applyProps ⟨[], [], []⟩ po))).events) =
      lookupD [] t ((applyProps ⟨[], [], []⟩ pn).events) := by
  unfold lookupD
  rw [updFold_events pn po _ t hn, applyProps_events pn _ t hn]
  cases hfn : pn.find? (fun kv => classifyCreate kv.1 kv.2 == AttrAction.event t) with
  | some a =>
    have hpreda := List.find?_some hfn
    have hmema := List.mem_of_find?_eq_some hfn
    rw [beq_iff_eq] at hpreda
    obtain ⟨hona, hcalla, ht⟩ := classify_event_facts a.1 a.2 t hpreda
    have huniq : ∀ b ∈ pn,
        (fun kv => classifyCreate kv.1 kv.2 == AttrAction.event t) b = true →
          b = a := by
      intro b hb hpb
      rw [beq_iff_eq] at hpb
      exact goodProps_unique pn hn b hb a hmema (hpb.trans hpreda.symm)
    rw [find?_and_unique _ _ pn a hfn huniq]
    by_cases hq : (alookup a.1 po).getD PropVal.undef = a.2
    · -- unchanged handler: the old registration survives untouched
      have hqf : (!((alookup a.1 po).getD PropVal.undef == a.2)) = false := by simp [hq]
      rw [hqf, if_neg (by simp)]
      have hva : a.2 ≠ PropVal.undef := (goodProps_mem_call pn hn a hmema).2
      have hlook : alookup a.1 po = some a.2 := getD_undef_peel a.1 po a.2 hva hq
      have hmempo : a ∈ po := by
        have := alookup_mem a.1 po a.2 hlook
        simpa using this
      have hfo : po.find?
          (fun kv => classifyCreate kv.1 kv.2 == AttrAction.event t) = some a := by
        apply find?_of_unique _ _ _ hmempo (by simp [hpreda])
        intro b hb hpb
        rw [beq_iff_eq] at hpb
        exact goodProps_unique po ho b hb a hmempo (hpb.trans hpreda.symm)
      have huniqo : ∀ b ∈ po,
          (fun kv => classifyCreate kv.1 kv.2 == AttrAction.event t) b = true →
            b = a := by
        intro b hb hpb
        rw [beq_iff_eq] at hpb
        exact goodProps_unique po ho b hb a hmempo (hpb.trans hpreda.symm)
      rw [remFold_events po pn _ t ho]
      rw [find?_and_unique _ _ po a hfo huniqo]
      have hkm : keyMem a.1 pn = true :=
        (keyMem_iff a.1 pn).2 ⟨a, hmema, rfl⟩
      rw [if_neg (by simp [hkm])]
      rw [applyProps_events po _ t ho, hfo]
    · -- changed handler: the old one is unregistered, the new one registered
      have hqt : (!((alookup a.1 po).getD PropVal.undef == a.2)) = true := by simp [hq]
      rw [hqt, if_pos rfl]
      dsimp only
      cases hap : alookup a.1 po with
      | some w =>
        have hmw : (a.1, w) ∈ po := alookup_mem a.1 po w hap
        have hcw : isCallable w = true :=
          (goodProps_mem_call po ho (a.1, w) hmw).1 hona
        have htw : truthy w = true := truthy_of_callable w hcw
        have hclw : classifyCreate a.1 w = AttrAction.event t := by
          rw [classify_event_of a.1 w hona hcw, ht]
        have hfo : po.find? (fun kv => classifyCreate kv.1 kv.2 == AttrAction.event t)
            = some (a.1, w) := by
          apply find?_of_unique _ _ _ hmw (by simp [hclw])
          intro c hc hpc
          rw [beq_iff_eq] at hpc
          exact goodProps_unique po ho c hc (a.1, w) hmw (hpc.trans hclw.symm)
        have huniqo : ∀ c ∈ po,
            (fun kv => classifyCreate kv.1 kv.2 == AttrAction.event t) c = true →
              c = (a.1, w) := by
          intro c hc hpc
          rw [beq_iff_eq] at hpc
          exact goodProps_unique po ho c hc (a.1, w) hmw (hpc.trans hclw.symm)
        have hkm : keyMem a.1 pn = true :=
          (keyMem_iff a.1 pn).2 ⟨a, hmema, rfl⟩
        rw [remFold_events po pn _ t ho,
          find?_and_unique_neg _ _ po (a.1, w) hfo huniqo (by simp [hkm])]
        rw [applyProps_events po _ t ho, hfo]
        simp [addSet, htw, alookup]
      | none =>
        cases hfo : po.find?
            (fun kv => classifyCreate kv.1 kv.2 == AttrAction.event t) with
        | none =>
          rw [remFold_events po pn _ t ho, find?_none_and _ _ po hfo]
          rw [applyProps_events po _ t ho, hfo]
          simp [truthy, addSet, alookup]
        | some b =>
          have hpredb := List.find?_some hfo
          rw [beq_iff_eq] at hpredb
          have hmemb := List.mem_of_find?_eq_some hfo
          obtain ⟨honb, hcallb, htb⟩ := classify_event_facts b.1 b.2 t hpredb
          have hkmb : keyMem b.1 pn = false := by
            by_contra hkm2
            rw [Bool.not_eq_false] at hkm2
            rcases (keyMem_iff b.1 pn).1 hkm2 with ⟨c, hcmem, hc1⟩
            have hcallc : isCallable c.2 = true :=
              (goodProps_mem_call pn hn c hcmem).1 (by rw [hc1]; exact honb)
            have hcc : classifyCreate c.1 c.2 = AttrAction.event t := by
              rw [classify_event_of c.1 c.2 (by rw [hc1]; exact honb) hcallc, hc1, ← htb]
            have hca : c = a := huniq c hcmem (by simp [hcc])
            have hbna : b.1 ≠ a.1 := by
              intro hba
              rw [alookup_eq_none_iff] at hap
              exact hap b hmemb hba
            exact hbna (by rw [← hc1, hca])
          have huniqo : ∀ c ∈ po,
              (fun kv => classifyCreate kv.1 kv.2 == AttrAction.event t) c = true →
                c = b := by
            intro c hc hpc
            rw [beq_iff_eq] at hpc
            exact goodProps_unique po ho c hc b hmemb (hpc.trans hpredb.symm)
          rw [remFold_events po pn _ t ho,
            find?_and_unique_pos _ _ po b hfo huniqo (by simp [hkmb])]
          rw [applyProps_events po _ t ho, hfo]
          simp [truthy, addSet, alookup]
  | none =>
    rw [find?_none_and _ _ pn hfn]
    rw [remFold_events po pn _ t ho]
    cases hfo : po.find?
        (fun kv => classifyCreate kv.1 kv.2 == AttrAction.event t) with
    | none =>
      rw [find?_none_and _ _ po hfo]
      rw [applyProps_events po _ t ho, hfo]
    | some b =>
      have hpredb := List.find?_some hfo
      have hmemb := List.mem_of_find?_eq_some hfo
      rw [beq_iff_eq] at hpredb
      obtain ⟨honb, hcallb, htb⟩ := classify_event_facts b.1 b.2 t hpredb
      have huniqo : ∀ c ∈ po,
          (fun kv => classifyCreate kv.1 kv.2 == AttrAction.event t) c = true →
            c = b := by
        intro c hc hpc
        rw [beq_iff_eq] at hpc
        exact goodProps_unique po ho c hc b hmemb (hpc.trans hpredb.symm)
      have hkm : keyMem b.1 pn = false := by
        by_contra hkm2
        rw [Bool.not_eq_false] at hkm2
        rcases (keyMem_iff b.1 pn).1 hkm2 with ⟨c, hcmem, hc1⟩
        have hcc : classifyCreate c.1 c.2 = AttrAction.event t := by
          have honc : startsOn c.1 = true := by rw [hc1]; exact honb
          have hcallc : isCallable c.2 = true :=
            (goodProps_mem_call pn hn c hcmem).1 honc
          rw [classify_event_of c.1 c.2 honc hcallc, hc1, ← htb]
        rw [List.find?_eq_none] at hfn
        exact hfn c hcmem (by simp [hcc])
      rw [find?_and_unique _ _ po b hfo huniqo]
      rw [if_pos (by simp [hkm])]
      rw [applyProps_events po _ t ho, hfo]
      simp [addSet, alookup]

theorem attrsEquiv_of (a b : List (String × String))
    (h : ∀ k, alookup k a = alookup k b) : attrsEquiv a b = true := by
  unfold attrsEquiv
  rw [List.all_eq_true]
  intro k hk
  simp [h k]

theorem bpropsEquiv_of (a b : List (String × Bool))
    (h : ∀ k, lookupD false k a = lookupD false k b) : bpropsEquiv a b = true := by
  unfold bpropsEquiv
  rw [List.all_eq_true]
  intro k hk
  simp [h k]

theorem eventsEquiv_of (a b : EvMap)
    (h : ∀ k, lookupD [] k a = lookupD [] k b) : eventsEquiv a b = true := by
  unfold eventsEquiv
  rw [List.all_eq_true]
  intro k hk
  simp [h k]

theorem stEquiv_of (a b : ElemSt)
    (h1 : ∀ k, alookup k a.attrs = alookup k b.attrs)
    (h2 : ∀ k, lookupD false k a.bprops = lookupD false k b.bprops)
    (h3 : ∀ k, lookupD [] k a.events = lookupD [] k b.events) :
    stEquiv a b = true := by
  unfold stEquiv
  rw [attrsEquiv_of _ _ h1, bpropsEquiv_of _ _ h2, eventsEquiv_of _ _ h3]
  rfl

/-- The reconciler's attribute diff, applied to the exact state the
materializer built from the old props, yields a state observably equivalent
to the state the materializer builds from the new props. -/
theorem updateAttributesU_conv (np op : Option Props) (hn : goodPropsO np = true)
    (ho : goodPropsO op = true) :
    stEquiv (updateAttributesU (matProps op) np op) (matProps np) = true := by
  have hgn := goodPropsO_getD np hn
  have hgo := goodPropsO_getD op ho
  rw [updateAttributesU_eq]
  unfold matProps
  exact stEquiv_of _ _
    (fun k => updAttr_ext (np.getD []) (op.getD []) hgn hgo k)
    (fun k => updBprop_ext (np.getD []) (op.getD []) hgn hgo k)
    (fun k => updEvents_ext (np.getD []) (op.getD []) hgn hgo k)

/-! ## Structural lemmas for the reconciler -/

theorem jsFalsy_solid (c : CNode) (h : solid c = true) : jsFalsy (some c) = false := by
  cases c with
  | text s =>
    simp only [solid, decide_eq_true_eq] at h
    simp [jsFalsy, h]
  | elem t p cs => rfl

theorem createElementList_length (cs : List CNode) :
    (createElementList cs).length = cs.length := by
  induction cs with
  | nil => rfl
  | cons c cs ih => simp [createElementList, ih]

theorem stEquiv_refl (st : ElemSt) : stEquiv st st = true := by
  simp [stEquiv, attrsEquiv, bpropsEquiv, eventsEquiv, List.all_eq_true]

mutual

theorem dEquiv_refl : ∀ d : DNode, dEquiv d d = true
  | .dtext s => by simp [dEquiv]
  | .delem t st kids => by
    simp [dEquiv, stEquiv_refl, dEquivList_refl kids]

theorem dEquivList_refl : ∀ l : List DNode, dEquivList l l = true
  | [] => rfl
  | x :: xs => by simp [dEquivList, dEquiv_refl x, dEquivList_refl xs]

end

theorem dEquivList_length : ∀ a b : List DNode, dEquivList a b = true →
    a.length = b.length
  | [], [], _ => rfl
  | [], _ :: _, h => by simp [dEquivList] at h
  | _ :: _, [], h => by simp [dEquivList] at h
  | x :: xs, y :: ys, h => by
    simp only [dEquivList, Bool.and_eq_true] at h
    simp [dEquivList_length xs ys h.2]

theorem getElem?_append_cons {α : Type} (A : List α) (x : α) (B : List α) :
    (A ++ x :: B)[A.length]? = some x := by
  rw [List.getElem?_append_right (Nat.le_refl _)]
  simp

theorem set_append_cons {α : Type} (A : List α) (x : α) (B : List α) (D : α) :
    (A ++ x :: B).set A.length D = A ++ D :: B := by
  induction A with
  | nil => rfl
  | cons a A ih => simp [List.set, ih]

theorem eraseIdx_append_cons {α : Type} (A : List α) (x : α) (B : List α) :
    (A ++ x :: B).eraseIdx A.length = A ++ B := by
  induction A with
  | nil => rfl
  | cons a A ih => simp [List.eraseIdx, ih]

theorem goodTreeList_mem (cs : List CNode) (h : goodTreeList cs = true) (c : CNode)
    (hc : c ∈ cs) : goodTree c = true ∧ solid c = true := by
  induction cs with
  | nil => cases hc
  | cons a l ih =>
    simp only [goodTreeList, Bool.and_eq_true] at h
    cases hc with
    | head => exact ⟨h.1.1, h.1.2⟩
    | tail _ hm => exact ih h.2 hm

theorem jsFalsy_none : jsFalsy none = true := rfl

/-- With an absent new node, `updateElement` erases at the index (out-of-range
erases are no-ops, including the text-replacement path the source takes when
the old node is an empty text). -/
theorem updateElement_none_fst (o : CNode) (K : List DNode) (i : Nat)
    (h : K.length ≤ i) : (updateElement K none (some o) i).1 = K := by
  rw [updateElement.eq_def]
  cases o with
  | text s =>
    by_cases hs : s = ""
    · subst hs
      simp [jsFalsy, List.set_eq_of_length_le h]
    · simp [jsFalsy, hs, removeAt, Nat.not_lt.mpr h]
  | elem t p cs => simp [jsFalsy, removeAt, Nat.not_lt.mpr h]

/-- Removal case of `updateElement` on a solid old node: erase at the index. -/
theorem updateElement_remove_fst (o : CNode) (hs : solid o = true) (K : List DNode)
    (i : Nat) : (updateElement K none (some o) i).1 = K.eraseIdx i := by
  have hf := jsFalsy_solid o hs
  rw [updateElement.eq_def]
  by_cases hi : i < K.length
  · simp [jsFalsy_none, hf, removeAt, hi]
  · simp [jsFalsy_none, hf, removeAt, hi, List.eraseIdx_of_length_le (Nat.le_of_not_lt hi)]

/-- Append case of `updateElement` on a solid new node with no old node. -/
theorem updateElement_append_fst (n : CNode) (hs : solid n = true) (K : List DNode)
    (i : Nat) : (updateElement K (some n) none i).1 = K ++ [createElement n] := by
  have hf := jsFalsy_solid n hs
  rw [updateElement.eq_def]
  simp [jsFalsy_none, hf, createElementO]

/-- Once the current index is out of range, the tail of the removal sweep of
the positional child loop no longer changes the child list. -/
theorem childLoop_nil_oob (os : List CNode) : ∀ (K : List DNode) (i : Nat),
    K.length ≤ i → (childLoop K [] os i).1 = K := by
  induction os with
  | nil => intro K i h; rw [childLoop.eq_def]
  | cons o os ih =>
    intro K i h
    rw [childLoop.eq_def]
    simp only
    rw [updateElement_none_fst o K i h]
    exact ih K (i + 1) (Nat.le_succ_of_le h)

/-- Closed form of the positional child loop once the new children are
exhausted: the prefix up to the current index survives, and beyond it every
other node survives, as computed by `skipErase`. -/
theorem childLoop_nil_fst (os : List CNode) (hs : ∀ o ∈ os, solid o = true) :
    ∀ (A B : List DNode),
      (childLoop (A ++ B) [] os A.length).1 = A ++ skipErase B os.length := by
  induction os with
  | nil => intro A B; rw [childLoop.eq_def]; simp [skipErase]
  | cons o os ih =>
    intro A B
    have hso : solid o = true := hs o (List.mem_cons_self o os)
    have hs2 : ∀ x ∈ os, solid x = true := fun x hx => hs x (List.mem_cons_of_mem _ hx)
    rw [childLoop.eq_def]
    simp only
    rw [updateElement_remove_fst o hso]
    match B with
    | [] =>
      rw [List.append_nil, List.eraseIdx_of_length_le (Nat.le_refl _)]
      rw [childLoop_nil_oob os A (A.length + 1) (Nat.le_succ _)]
      simp [skipErase]
    | [b] =>
      rw [eraseIdx_append_cons A b []]
      rw [List.append_nil, childLoop_nil_oob os A (A.length + 1) (Nat.le_succ _)]
      simp [skipErase]
    | b :: b2 :: B3 =>
      rw [eraseIdx_append_cons A b (b2 :: B3)]
      have hre : A ++ b2 :: B3 = (A ++ [b2]) ++ B3 := by simp
      have hlen : A.length + 1 = (A ++ [b2]).length := by simp
      rw [hre, hlen, ih hs2 (A ++ [b2]) B3]
      simp [skipErase]

/-- The surplus-removal loop started at the last index with `k` iterations,
on a list that does not extend beyond that index, keeps exactly the prefix
up to `i + 1 - k`. -/
theorem remLoop_fst_take : ∀ (k i : Nat) (L : List DNode), L.length ≤ i + 1 →
    (remLoop L i k).1 = L.take (i + 1 - k) := by
  intro k
  induction k with
  | zero => intro i L h; simp [remLoop, List.take_of_length_le h]
  | succ k ih =>
    intro i L h
    rw [remLoop]
    by_cases hi : i < L.length
    · have hlen : L.length = i + 1 := Nat.le_antisymm h hi
      simp only [hi, if_true]
      have herase : L.eraseIdx i = L.take i := by
        rw [List.eraseIdx_eq_take_drop_succ, List.drop_of_length_le (by omega),
          List.append_nil]
      rw [herase]
      have h2 : (L.take i).length ≤ (i - 1) + 1 := by
        simp [List.length_take]
        omega
      rw [ih (i - 1) (L.take i) h2, List.take_take]
      congr 1
      omega
    · simp only [hi, if_false]
      have h2 : L.length ≤ (i - 1) + 1 := by omega
      rw [ih (i - 1) L h2]
      rcases Nat.eq_zero_or_pos i with hz | hp
      · subst hz
        have : L = [] := List.eq_nil_of_length_eq_zero (by omega)
        simp [this]
      · congr 1
        omega

/-- `skipErase` never lengthens a list. -/
theorem skipErase_le : ∀ (k : Nat) (l : List DNode), (skipErase l k).length ≤ l.length := by
  intro k
  induction k with
  | zero => intro l; simp [skipErase]
  | succ k ih =>
    intro l
    match l with
    | [] => simp [skipErase]
    | [a] => simp [skipErase]
    | a :: b :: rest =>
      have := ih rest
      simp only [skipErase, List.length_cons]
      omega

/-- At least one iteration on a non-empty list loses at least one element. -/
theorem skipErase_lt (k : Nat) : ∀ (l : List DNode), l ≠ [] →
    (skipErase l (k + 1)).length + 1 ≤ l.length := by
  intro l hl
  match l with
  | [] => exact absurd rfl hl
  | [a] => simp [skipErase]
  | a :: b :: rest =>
    have := skipErase_le k rest
    simp only [skipErase, List.length_cons]
    omega

/-- Closed form of the positional child loop on a prefix-aligned live child
list: if every aligned (new, old) pair updates in place to a node equivalent
to the fresh materialization of the new child, the loop leaves the prefix
before the start index untouched, produces an equivalent block for the new
children (in-place updates, then appends once the old children run out), and
leaves the `skipErase` residue of the surplus old materializations. -/
theorem childLoop_main : ∀ (cn co : List CNode),
    (∀ c, c ∈ cn → ∀ o, o ∈ co → ∀ (kids : List DNode) (i : Nat),
      kids[i]? = some (createElement o) →
      ∃ D, (updateElement kids (some c) (some o) i).1 = kids.set i D ∧
        dEquiv D (createElement c) = true) →
    (∀ c ∈ cn, solid c = true) → (∀ o ∈ co, solid o = true) →
    ∀ (A : List DNode),
    ∃ Es, (childLoop (A ++ createElementList co) cn co A.length).1
        = A ++ Es ++ skipErase (createElementList (List.drop cn.length co))
            (co.length - cn.length) ∧
      dEquivList Es (createElementList cn) = true := by
  intro cn
  induction cn with
  | nil =>
    intro co IH hn ho A
    refine ⟨[], ?_, rfl⟩
    cases co with
    | nil =>
      rw [childLoop.eq_def]
      simp [createElementList, skipErase]
    | cons o os =>
      rw [childLoop_nil_fst (o :: os) ho A (createElementList (o :: os))]
      simp [createElementList_length]
  | cons n ns ih =>
    intro co IH hn ho A
    have hsn : solid n = true := hn n (List.mem_cons_self n ns)
    have hn2 : ∀ c ∈ ns, solid c = true := fun c hc => hn c (List.mem_cons_of_mem _ hc)
    cases co with
    | nil =>
      obtain ⟨Es, hEq, hEquiv⟩ := ih []
        (fun c hc o ho2 => absurd ho2 (List.not_mem_nil o)) hn2
        (fun o ho2 => absurd ho2 (List.not_mem_nil o)) (A ++ [createElement n])
      simp only [createElementList, List.append_nil, List.length_append,
        List.length_cons, List.length_nil] at hEq
      refine ⟨createElement n :: Es, ?_, ?_⟩
      · rw [childLoop.eq_def]
        simp only [createElementList, List.append_nil]
        rw [updateElement_append_fst n hsn A A.length]
        rw [hEq]
        simp [skipErase, createElementList]
      · simp [createElementList, dEquivList, dEquiv_refl, hEquiv]
    | cons o os =>
      have IH2 : ∀ c, c ∈ ns → ∀ o2, o2 ∈ os → ∀ (kids : List DNode) (i : Nat),
          kids[i]? = some (createElement o2) →
          ∃ D, (updateElement kids (some c) (some o2) i).1 = kids.set i D ∧
            dEquiv D (createElement c) = true :=
        fun c hc o2 ho3 => IH c (List.mem_cons_of_mem _ hc) o2 (List.mem_cons_of_mem _ ho3)
      have ho2 : ∀ x ∈ os, solid x = true := fun x hx => ho x (List.mem_cons_of_mem _ hx)
      have hget : (A ++ createElement o :: createElementList os)[A.length]?
          = some (createElement o) :=
        getElem?_append_cons A (createElement o) (createElementList os)
      obtain ⟨D, hD1, hD2⟩ := IH n (List.mem_cons_self n ns) o (List.mem_cons_self o os)
        (A ++ createElement o :: createElementList os) A.length hget
      obtain ⟨Es, hEq, hEquiv⟩ := ih os IH2 hn2 ho2 (A ++ [D])
      refine ⟨D :: Es, ?_, ?_⟩
      · rw [childLoop.eq_def]
        simp only [createElementList]
        rw [hD1, set_append_cons]
        rw [show A ++ D :: createElementList os = (A ++ [D]) ++ createElementList os
          from by simp]
        rw [show A.length + 1 = (A ++ [D]).length from by simp]
        rw [hEq]
        simp [List.append_assoc]
      · simp [createElementList, dEquivList, hD2, hEquiv]

/-- Convergence of a single in-place update: on well-behaved solid trees,
`updateElement` at an index holding the materialization of the old tree
replaces that slot with a node equivalent to a fresh materialization of the
new tree.  Strong induction on the combined size of the two trees. -/
theorem upd_conv (N : Nat) : ∀ (newC oldC : CNode),
    sizeOf newC + sizeOf oldC ≤ N →
    goodTree newC = true → goodTree oldC = true →
    solid newC = true → solid oldC = true →
    ∀ (kids : List DNode) (i : Nat), kids[i]? = some (createElement oldC) →
    ∃ D, (updateElement kids (some newC) (some oldC) i).1 = kids.set i D ∧
      dEquiv D (createElement newC) = true := by
  induction N using Nat.strong_induction_on with
  | _ N ih =>
  intro newC oldC hsz hgN hgO hsN hsO kids i hki
  cases newC with
  | text a =>
    cases oldC with
    | text b =>
      simp only [createElement] at hki
      by_cases hab : a = b
      · subst hab
        refine ⟨.dtext a, ?_, ?_⟩
        · rw [updateElement.eq_def]
          simp [jsFalsy_solid _ hsN, list_set_self kids i _ hki]
        · simp [createElement, dEquiv]
      · refine ⟨.dtext a, ?_, ?_⟩
        · rw [updateElement.eq_def]
          simp [jsFalsy_solid _ hsN, jsFalsy_solid _ hsO, hab, hki, setTextContent]
        · simp [createElement, dEquiv]
    | elem ot op ocs =>
      have ha : ¬a = "" := by
        simpa [solid, decide_eq_true_eq] using hsN
      refine ⟨.dtext a, ?_, ?_⟩
      · rw [updateElement.eq_def]
        simp [jsFalsy, createElement, ha]
      · simp [createElement, dEquiv]
  | elem nt np ncs =>
    cases oldC with
    | text b =>
      have hb : ¬b = "" := by
        simpa [solid, decide_eq_true_eq] using hsO
      refine ⟨createElement (.elem nt np ncs), ?_, ?_⟩
      · rw [updateElement.eq_def]
        simp [jsFalsy, createElementO, hb]
      · exact dEquiv_refl _
    | elem ot op ocs =>
      simp only [goodTree, Bool.and_eq_true] at hgN hgO
      simp only [createElement] at hki
      by_cases htag : nt = ot
      case neg =>
        refine ⟨createElement (.elem nt np ncs), ?_, ?_⟩
        · rw [updateElement.eq_def]
          simp [jsFalsy, htag, hki]
        · exact dEquiv_refl _
      case pos =>
      subst htag
      have pairIH : ∀ c, c ∈ ncs → ∀ o, o ∈ ocs →
          ∀ (kids2 : List DNode) (i2 : Nat),
          kids2[i2]? = some (createElement o) →
          ∃ D, (updateElement kids2 (some c) (some o) i2).1 = kids2.set i2 D ∧
            dEquiv D (createElement c) = true := by
        intro c hc o hoc
        have h1 : sizeOf c < sizeOf (CNode.elem nt np ncs) := by
          have := List.sizeOf_lt_of_mem hc
          simp only [CNode.elem.sizeOf_spec]
          omega
        have h2 : sizeOf o < sizeOf (CNode.elem nt op ocs) := by
          have := List.sizeOf_lt_of_mem hoc
          simp only [CNode.elem.sizeOf_spec]
          omega
        have hgc := goodTreeList_mem ncs hgN.2 c hc
        have hgo2 := goodTreeList_mem ocs hgO.2 o hoc
        exact ih (sizeOf c + sizeOf o) (by omega) c o (Nat.le_refl _)
          hgc.1 hgo2.1 hgc.2 hgo2.2
      obtain ⟨Es, hE1, hE2⟩ := childLoop_main ncs ocs pairIH
        (fun c hc => (goodTreeList_mem ncs hgN.2 c hc).2)
        (fun o hoc => (goodTreeList_mem ocs hgO.2 o hoc).2) []
      simp only [List.nil_append, List.length_nil] at hE1
      have hEsLen : Es.length = ncs.length := by
        have := dEquivList_length Es (createElementList ncs) hE2
        rwa [createElementList_length] at this
      have hstE : stEquiv (updateAttributesU (matProps op) np op) (matProps np) = true :=
        updateAttributesU_conv np op hgN.1 hgO.1
      refine ⟨.delem nt (updateAttributesU (matProps op) np op) Es, ?_, ?_⟩
      · rw [updateElement.eq_def]
        simp only [jsFalsy, Bool.false_and, Bool.and_false, Bool.not_false,
          Bool.true_and, Bool.false_or, if_false, ite_false, hki]
        simp only [ne_eq, not_true_eq_false, if_false, ite_false]
        rw [hE1]
        by_cases hlen : ncs.length < ocs.length
        · have hocs1 : 1 ≤ ocs.length := by omega
          have hdropne : createElementList (List.drop ncs.length ocs) ≠ [] := by
            intro hnil
            have := congrArg List.length hnil
            rw [createElementList_length] at this
            simp only [List.length_drop, List.length_nil] at this
            omega
          have hkpos : ocs.length - ncs.length
              = (ocs.length - ncs.length - 1) + 1 := by omega
          have hRlen : (skipErase (createElementList (List.drop ncs.length ocs))
              (ocs.length - ncs.length)).length + 1 ≤ ocs.length - ncs.length := by
            have h2 := skipErase_lt (ocs.length - ncs.length - 1)
              (createElementList (List.drop ncs.length ocs)) hdropne
            rw [createElementList_length, List.length_drop] at h2
            rwa [show ocs.length - ncs.length - 1 + 1 = ocs.length - ncs.length
              from by omega] at h2
          have hLlen : (Es ++ skipErase (createElementList (List.drop ncs.length ocs))
              (ocs.length - ncs.length)).length ≤ (ocs.length - 1) + 1 := by
            rw [List.length_append, hEsLen]
            omega
          rw [if_pos hlen, remLoop_fst_take _ _ _ hLlen]
          have harith : ocs.length - 1 + 1 - (ocs.length - ncs.length) = ncs.length := by
            omega
          rw [harith, ← hEsLen, List.take_left]
          simp
        · have hdrop : List.drop ncs.length ocs = [] :=
            List.drop_eq_nil_of_le (by omega)
          rw [if_neg hlen]
          simp [hdrop, createElementList, skipErase]
          rw [show ocs.length - ncs.length = 0 from by omega]
          simp [skipErase]
      · simp [createElement, dEquiv, hstE, hE2]

/-! ## Self-update is the identity (same props, same children) -/

theorem keyMem_of_mem [DecidableEq κ] (kv : κ × α) (l : List (κ × α)) (h : kv ∈ l) :
    keyMem kv.1 l = true := (keyMem_iff kv.1 l).mpr ⟨kv, h, rfl⟩

theorem alookup_self_of_nodup (ps : Props) (hnd : nodupKeysP ps = true) :
    ∀ kv ∈ ps, alookup kv.1 ps = some kv.2 := by
  induction ps with
  | nil => intro kv h; cases h
  | cons hd l ih =>
    simp only [nodupKeysP, Bool.and_eq_true, Bool.not_eq_true'] at hnd
    intro kv h
    cases h with
    | head => simp [alookup]
    | tail _ hm =>
      have hne : hd.1 ≠ kv.1 := by
        intro he
        have hk := keyMem_of_mem kv l hm
        rw [← he, hnd.1] at hk
        exact Bool.false_ne_true hk
      simp only [alookup, hne, if_false]
      exact ih hnd.2 kv hm

theorem foldl_id_of {β γ : Type} (f : β → γ → β) (l : List γ)
    (h : ∀ b : β, ∀ x ∈ l, f b x = b) : ∀ b : β, l.foldl f b = b := by
  induction l with
  | nil => intro b; rfl
  | cons x xs ih =>
    intro b
    rw [List.foldl_cons, h b x (List.mem_cons_self x xs)]
    exact ih (fun b2 y hy => h b2 y (List.mem_cons_of_mem _ hy)) b

/-- Diffing a props object against itself changes nothing: no key is removed
(every old key is still present) and every value compares strictly equal to
its old value (unique keys make the lookup hit the entry itself). -/
theorem updAttrs_selfO (st : ElemSt) (pso : Option Props)
    (h : nodupKeysP (Option.getD pso []) = true) :
    updateAttributesU st pso pso = st := by
  rw [updateAttributesU_eq]
  rw [foldl_id_of _ _ (fun b kv hkv => by
    rw [if_pos (keyMem_of_mem kv _ hkv)]) st]
  exact foldl_id_of _ _ (fun b kv hkv => by
    rw [if_pos (by rw [alookup_self_of_nodup _ h kv hkv]; rfl)]) st

theorem nodupKeysTreeList_mem (cs : List CNode) (h : nodupKeysTreeList cs = true)
    (c : CNode) (hc : c ∈ cs) : nodupKeysTree c = true := by
  induction cs with
  | nil => cases hc
  | cons a l ih =>
    simp only [nodupKeysTreeList, Bool.and_eq_true] at h
    cases hc with
    | head => exact h.1
    | tail _ hm => exact ih h.2 hm

/-- Walking the positional child loop over a shared prefix of identical
(new, old) children leaves the live list untouched and advances the index to
the end of that prefix. -/
theorem childLoop_self_prefix : ∀ (cn rest : List CNode),
    (∀ c ∈ cn, ∀ (kids : List DNode) (i : Nat),
      kids[i]? = some (createElement c) →
      (updateElement kids (some c) (some c) i).1 = kids) →
    ∀ (pre : List DNode),
    (childLoop (pre ++ (createElementList cn ++ createElementList rest)) cn (cn ++ rest)
        pre.length).1
      = (childLoop (pre ++ (createElementList cn ++ createElementList rest)) [] rest
          (pre.length + cn.length)).1 := by
  intro cn
  induction cn with
  | nil =>
    intro rest IH pre
    simp [createElementList]
  | cons c cn ih =>
    intro rest IH pre
    have hc := IH c (List.mem_cons_self c cn)
    have IH2 : ∀ x ∈ cn, ∀ (kids : List DNode) (i : Nat),
        kids[i]? = some (createElement x) →
        (updateElement kids (some x) (some x) i).1 = kids :=
      fun x hx => IH x (List.mem_cons_of_mem _ hx)
    simp only [createElementList, List.cons_append]
    rw [childLoop.eq_def]
    simp only
    have hget : (pre ++ createElement c :: (createElementList cn ++ createElementList rest))[pre.length]?
        = some (createElement c) :=
      getElem?_append_cons pre (createElement c) _
    rw [hc _ pre.length hget]
    have e1 : pre ++ createElement c :: (createElementList cn ++ createElementList rest)
        = (pre ++ [createElement c]) ++ (createElementList cn ++ createElementList rest) := by
      simp
    have e2 : pre.length + 1 = (pre ++ [createElement c]).length := by simp
    rw [e1, e2, ih rest IH2 (pre ++ [createElement c])]
    have e3 : (pre ++ [createElement c]).length + cn.length = pre.length + (cn.length + 1) := by
      simp
      omega
    rw [← e1, e3]
    simp

/-- Updating a tree against itself is the identity on the live child list:
the attribute diff is empty and each child reconciles against itself. -/
theorem updateElement_self_fst (N : Nat) : ∀ (A : CNode), sizeOf A ≤ N →
    nodupKeysTree A = true →
    ∀ (kids : List DNode) (i : Nat), kids[i]? = some (createElement A) →
    (updateElement kids (some A) (some A) i).1 = kids := by
  induction N using Nat.strong_induction_on with
  | _ N ih =>
  intro A hsz hnd kids i hki
  cases A with
  | text a =>
    rw [updateElement.eq_def]
    simp [jsFalsy, list_set_self]
  | elem t ps cs =>
    simp only [nodupKeysTree, Bool.and_eq_true] at hnd
    simp only [createElement] at hki
    have pair : ∀ c ∈ cs, ∀ (kids2 : List DNode) (i2 : Nat),
        kids2[i2]? = some (createElement c) →
        (updateElement kids2 (some c) (some c) i2).1 = kids2 := by
      intro c hc
      have h1 : sizeOf c < sizeOf (CNode.elem t ps cs) := by
        have := List.sizeOf_lt_of_mem hc
        simp only [CNode.elem.sizeOf_spec]
        omega
      exact ih (sizeOf c) (by omega) c (Nat.le_refl _)
        (nodupKeysTreeList_mem cs hnd.2 c hc)
    have hcl := childLoop_self_prefix cs [] pair []
    simp only [createElementList, List.append_nil, List.nil_append,
      List.length_nil, Nat.zero_add] at hcl
    have hclnil : (childLoop (createElementList cs) [] [] cs.length).1
        = createElementList cs := by
      rw [childLoop.eq_def]
    rw [hclnil] at hcl
    rw [updateElement.eq_def]
    simp only [jsFalsy, Bool.and_false, Bool.false_and, Bool.not_false, if_false,
      ite_false, ne_eq, not_true_eq_false, hki]
    simp only [Bool.false_eq_true, if_false, ite_false]
    rw [updAttrs_selfO _ ps hnd.1, hcl]
    simp [list_set_self kids i _ hki]

/-! ## The surplus phase never disturbs the already-reconciled prefix -/

theorem take_set {α : Type} : ∀ (K : List α) (i : Nat) (a : α),
    (K.set i a).take i = K.take i := by
  intro K
  induction K with
  | nil => intro i a; simp
  | cons x xs ih =>
    intro i a
    cases i with
    | zero => simp
    | succ i => simp [List.set, List.take, ih i a]

theorem take_eraseIdx {α : Type} : ∀ (K : List α) (i : Nat),
    (K.eraseIdx i).take i = K.take i := by
  intro K
  induction K with
  | nil => intro i; simp
  | cons x xs ih =>
    intro i
    cases i with
    | zero => simp
    | succ i => simp [List.eraseIdx, List.take, ih i]

/-- The removal case at index `i` leaves the first `i` live children alone and
never lengthens the list (erase in range, text overwrite for an empty old
text, no-op out of range). -/
theorem updateElement_none_take (o : CNode) (K : List DNode) (i : Nat) :
    (updateElement K none (some o) i).1.take i = K.take i ∧
      (updateElement K none (some o) i).1.length ≤ K.length := by
  rw [updateElement.eq_def]
  cases o with
  | text s =>
    by_cases hs : s = ""
    · subst hs
      simp [jsFalsy, take_set]
    · simp only [jsFalsy, hs]
      by_cases hi : i < K.length
      · simp [removeAt, hi, take_eraseIdx]
        rw [List.eraseIdx_eq_take_drop_succ]
        simp [List.length_take, List.length_drop]
        omega
      · simp [removeAt, hi]
  | elem t p cs =>
    simp only [jsFalsy]
    by_cases hi : i < K.length
    · simp [removeAt, hi, take_eraseIdx]
      rw [List.eraseIdx_eq_take_drop_succ]
      simp [List.length_take, List.length_drop]
      omega
    · simp [removeAt, hi]

/-- The whole removal sweep of the child loop leaves the first `i` live
children alone and never lengthens the list. -/
theorem childLoop_nil_take : ∀ (os : List CNode) (K : List DNode) (i : Nat),
    (childLoop K [] os i).1.take i = K.take i ∧
      (childLoop K [] os i).1.length ≤ K.length := by
  intro os
  induction os with
  | nil =>
    intro K i
    rw [childLoop.eq_def]
    exact ⟨rfl, Nat.le_refl _⟩
  | cons o os ih =>
    intro K i
    rw [childLoop.eq_def]
    simp only
    obtain ⟨hstep1, hstep2⟩ := updateElement_none_take o K i
    obtain ⟨hrec1, hrec2⟩ := ih (updateElement K none (some o) i).1 (i + 1)
    constructor
    · have h1 : (childLoop (updateElement K none (some o) i).1 [] os (i + 1)).1.take i
          = ((childLoop (updateElement K none (some o) i).1 [] os (i + 1)).1.take (i + 1)).take i := by
        rw [List.take_take, Nat.min_eq_left (Nat.le_succ i)]
      rw [h1, hrec1, List.take_take, Nat.min_eq_left (Nat.le_succ i), hstep1]
    · exact Nat.le_trans hrec2 hstep2

/-- C5: reconciling a same-tag element with old children `[A, B, C, D]`
against new children `[A, B]` leaves the live child list equal to exactly the
materializations of `[A, B]`: the ascending loop reconciles the first two
children against themselves (identity) and erases at index 2 twice (removing
C and shifting D down, then going out of range), and the trailing descending
loop removes the leftover D, restoring the exact prefix.  The props
hypotheses state that every props object has unique keys, which JavaScript
object literals guarantee. -/
theorem surplus_removal_exact (tag : String) (ps : Option Props) (A B C D : CNode)
    (hps : nodupKeysP (Option.getD ps []) = true)
    (hA : nodupKeysTree A = true) (hB : nodupKeysTree B = true) :
    (updateElement [createElement (.elem tag ps [A, B, C, D])]
      (some (.elem tag ps [A, B])) (some (.elem tag ps [A, B, C, D])) 0).1
      = [createElement (.elem tag ps [A, B])] := by
  have pairAB : ∀ c ∈ [A, B], ∀ (kids2 : List DNode) (i2 : Nat),
      kids2[i2]? = some (createElement c) →
      (updateElement kids2 (some c) (some c) i2).1 = kids2 := by
    intro c hc
    simp only [List.mem_cons, List.mem_singleton, List.not_mem_nil, or_false] at hc
    cases hc with
    | inl h => subst h; exact updateElement_self_fst (sizeOf c) c (Nat.le_refl _) hA
    | inr h => subst h; exact updateElement_self_fst (sizeOf c) c (Nat.le_refl _) hB
  have h1 := childLoop_self_prefix [A, B] [C, D] pairAB []
  simp only [createElementList, List.nil_append, List.cons_append, List.length_nil,
    List.length_cons, Nat.zero_add] at h1
  rw [show (1 + 1 : Nat) = 2 from rfl] at h1
  obtain ⟨htake, hlen⟩ := childLoop_nil_take [C, D]
    [createElement A, createElement B, createElement C, createElement D] 2
  simp only [List.length_cons, List.length_nil] at hlen
  rw [updateElement.eq_def]
  simp only [jsFalsy, Bool.false_and, Bool.and_false, Bool.not_false, if_false,
    ite_false, ne_eq, not_true_eq_false, createElement, createElementList,
    List.getElem?_cons_zero]
  simp only [Bool.false_eq_true, if_false, ite_false]
  rw [h1]
  rw [updAttrs_selfO _ ps hps]
  simp only [List.length_cons, List.length_nil]
  rw [if_pos (by omega)]
  rw [remLoop_fst_take 2 3 _ (by omega)]
  rw [show 3 + 1 - 2 = 2 from rfl]
  rw [htake]
  simp [List.take]

/-! ## Ordering of surplus removals -/

/-- Every removal the trailing loop records happens at or below its starting
index. -/
theorem remLoop_trace_le : ∀ (k i : Nat) (kids : List DNode),
    ∀ j ∈ (remLoop kids i k).2, j ≤ i := by
  intro k
  induction k with
  | zero => intro i kids j hj; simp [remLoop] at hj
  | succ k ih =>
    intro i kids j hj
    simp only [remLoop] at hj
    by_cases hi : i < kids.length
    · simp only [hi, if_true, List.mem_cons] at hj
      cases hj with
      | inl h => omega
      | inr h =>
        have := ih (i - 1) (kids.eraseIdx i) j h
        omega
    · simp only [hi, if_false] at hj
      have := ih (i - 1) kids j hj
      omega

/-- C4 (amended): the dedicated trailing surplus-removal loop
(`for (let i = oldLength - 1; i >= newLength; i--)`) does remove at strictly
descending indices, provided its trip count does not exceed its starting
index plus one — which holds at its call site, where it runs
`oldLength - newLength` times starting at index `oldLength - 1`.  The full
removal sequence of a same-tag reconciliation is nonetheless not descending,
because the ascending child loop already removes surplus children at
ascending indices before this loop runs. -/
theorem remLoop_removals_descending : ∀ (k i : Nat) (kids : List DNode),
    k ≤ i + 1 → List.Pairwise (fun a b => b < a) (remLoop kids i k).2 := by
  intro k
  induction k with
  | zero => intro i kids h; simp [remLoop]
  | succ k ih =>
    intro i kids h
    simp only [remLoop]
    by_cases hi : i < kids.length
    · simp only [hi, if_true]
      refine List.Pairwise.cons ?_ (ih (i - 1) _ (by omega))
      intro j hj
      have hle := remLoop_trace_le k (i - 1) (kids.eraseIdx i) j hj
      rcases Nat.eq_zero_or_pos i with hz | hp
      · subst hz
        have hk : k = 0 := by omega
        subst hk
        simp [remLoop] at hj
      · omega
    · simp only [hi, if_false]
      exact ih (i - 1) kids (by omega)

/-- Witness: the trailing loop on a five-element child list, starting at
index 4 with three removals, records strictly descending indices. -/
theorem remLoop_removals_descending_witness :
    3 ≤ 4 + 1 ∧ List.Pairwise (fun a b => b < a)
      (remLoop [DNode.dtext "a", DNode.dtext "b", DNode.dtext "c",
        DNode.dtext "d", DNode.dtext "e"] 4 3).2 :=
  ⟨by decide, remLoop_removals_descending 3 4
    [DNode.dtext "a", DNode.dtext "b", DNode.dtext "c",
      DNode.dtext "d", DNode.dtext "e"] (by decide)⟩

/-- C4 (counterexample): reconciling old children `A … E` against new
children `A, B` under the same `ul` tag performs its removals at indices
2, then 3, then 2 — the ascending child loop removes at 2 and 3 (each erase
shifting the remainder left, so a node survives there), and only the final
removal at 2 comes from the descending trailing loop.  The sequence
`[2, 3, 2]` is not strictly descending. -/
theorem updateElement_removals_not_descending :
    (updateElement
        [createElement (.elem "ul" none
          [.text "A", .text "B", .text "C", .text "D", .text "E"])]
        (some (.elem "ul" none [.text "A", .text "B"]))
        (some (.elem "ul" none
          [.text "A", .text "B", .text "C", .text "D", .text "E"])) 0).2
      = [2, 3, 2] ∧
      ¬ List.Pairwise (fun a b : Nat => b < a) [2, 3, 2] := by
  constructor
  · simp [updateElement.eq_def, childLoop.eq_def, jsFalsy, createElement,
      createElementList, matProps, applyProps, updateAttributesU, remLoop,
      removeAt, setTextContent, createElementO]
  · decide

/-- Witness: a concrete same-tag reconciliation `[A,B,C,D] → [A,B]` with four
distinct child shapes and a props object, ending in exactly the
materializations of `[A, B]`. -/
theorem surplus_removal_exact_witness :
    nodupKeysP (Option.getD (some [("className", PropVal.str "list")]) []) = true ∧
    nodupKeysTree (CNode.text "A") = true ∧
    nodupKeysTree (CNode.elem "li" none []) = true ∧
    (updateElement
        [createElement (.elem "ul" (some [("className", PropVal.str "list")])
          [.text "A", .elem "li" none [], .text "C",
            .elem "li" (some [("id", PropVal.str "d")]) []])]
        (some (.elem "ul" (some [("className", PropVal.str "list")])
          [.text "A", .elem "li" none []]))
        (some (.elem "ul" (some [("className", PropVal.str "list")])
          [.text "A", .elem "li" none [], .text "C",
            .elem "li" (some [("id", PropVal.str "d")]) []])) 0).1
      = [createElement (.elem "ul" (some [("className", PropVal.str "list")])
          [.text "A", .elem "li" none []])] :=
  ⟨by decide, by decide, by decide,
    surplus_removal_exact "ul" (some [("className", PropVal.str "list")])
      (.text "A") (.elem "li" none []) (.text "C")
      (.elem "li" (some [("id", PropVal.str "d")]) [])
      (by decide) (by decide) (by decide)⟩

/-- C1 (counterexample): the canonical trees `A = "x"` and `B = ""` violate
convergence: the empty string is falsy, so case 1 of the diff removes the
live text node entirely, while a fresh materialization of `B` is an empty
text node — an empty live list against a one-node list. -/
theorem updateElement_diverges_empty_text :
    dEquivList ((updateElement [createElement (CNode.text "x")]
        (some (CNode.text "")) (some (CNode.text "x")) 0).1)
      [createElement (CNode.text "")] = false := by
  simp [updateElement.eq_def, jsFalsy, createElement, removeAt, dEquivList,
    List.eraseIdx]

/-- C1 (amended): convergence holds for well-behaved solid canonical trees:
no empty text node at the root or among children (the normalizer never emits
empty-text children, but an empty string can stand alone), and every props
object free of `undefined` values, duplicate routing targets and non-callable
`on*` entries.  Then updating the live tree materialized from `A` in place
against `B` yields a live tree equivalent to a fresh materialization of
`B`. -/
theorem updateElement_converges (A B : CNode)
    (hgA : goodTree A = true) (hgB : goodTree B = true)
    (hsA : solid A = true) (hsB : solid B = true) :
    dEquivList ((updateElement [createElement A] (some B) (some A) 0).1)
      [createElement B] = true := by
  obtain ⟨D, hD1, hD2⟩ := upd_conv (sizeOf B + sizeOf A) B A (Nat.le_refl _)
    hgB hgA hsB hsA [createElement A] 0 (by simp)
  rw [hD1]
  simp [dEquivList, hD2]

/-- Witness: a concrete reconciliation between two well-behaved trees with
different tags among children, changed attribute values, a handler, a boolean
property and differing child counts. -/
theorem updateElement_converges_witness :
    goodTree (CNode.elem "div" (some [("className", PropVal.str "a"),
      ("onClick", PropVal.fn 1)]) [CNode.text "hi", CNode.elem "span" none []]) = true ∧
    goodTree (CNode.elem "div" (some [("id", PropVal.str "b"),
      ("disabled", PropVal.bool true)]) [CNode.text "yo"]) = true ∧
    solid (CNode.elem "div" (some [("className", PropVal.str "a"),
      ("onClick", PropVal.fn 1)]) [CNode.text "hi", CNode.elem "span" none []]) = true ∧
    solid (CNode.elem "div" (some [("id", PropVal.str "b"),
      ("disabled", PropVal.bool true)]) [CNode.text "yo"]) = true ∧
    dEquivList ((updateElement
        [createElement (CNode.elem "div" (some [("className", PropVal.str "a"),
          ("onClick", PropVal.fn 1)]) [CNode.text "hi", CNode.elem "span" none []])]
        (some (CNode.elem "div" (some [("id", PropVal.str "b"),
          ("disabled", PropVal.bool true)]) [CNode.text "yo"]))
        (some (CNode.elem "div" (some [("className", PropVal.str "a"),
          ("onClick", PropVal.fn 1)]) [CNode.text "hi", CNode.elem "span" none []]))
        0).1)
      [createElement (CNode.elem "div" (some [("id", PropVal.str "b"),
        ("disabled", PropVal.bool true)]) [CNode.text "yo"])] = true :=
  ⟨by decide, by decide, by decide, by decide,
    updateElement_converges
      (CNode.elem "div" (some [("className", PropVal.str "a"),
        ("onClick", PropVal.fn 1)]) [CNode.text "hi", CNode.elem "span" none []])
      (CNode.elem "div" (some [("id", PropVal.str "b"),
        ("disabled", PropVal.bool true)]) [CNode.text "yo"])
      (by decide) (by decide) (by decide) (by decide)⟩

end VDom
